import Mathlib

/-!
Verification development for broadcast-event (src/broadcast-event.js), a
library that relays DOM CustomEvents across a tree of iframes.

JavaScript strings are modelled as lists of UTF-16 code units
(`List Nat`); plain identifier-valued strings (event names, origin ids)
are modelled as Lean `String`s, with `strCodes` bridging the two where
the code manipulates a string character by character. JavaScript numbers
holding `Date.now()` timestamps are modelled as `Int`. Fallible platform
primitives (`btoa`, `atob`, `JSON.parse`) return `Option`, `none`
standing for a thrown exception.
-/

namespace BroadcastEvent

/-- JavaScript truthiness of an optional string-valued property:
`undefined`/absent and the empty string are falsy. -/
def jsFalsy : Option String → Bool
  | none => true
  | some s => s.isEmpty

/-- Code units of a Lean string (BMP characters coincide with UTF-16 units). -/
def strCodes (s : String) : List Nat :=
  s.data.map Char.toNat

/-! ## Base64 (`btoa` / `atob`)

The cipher in broadcast-event.js calls the platform functions `btoa` and
`atob`. `btoa` throws an InvalidCharacterError when any code unit of its
argument exceeds 255; `atob` implements forgiving-base64 decoding and
throws on characters outside the alphabet or a leftover length of 1. -/

/-- The base64 alphabet as character codes: A-Z, a-z, 0-9, +, /. -/
def b64chars : List Nat :=
  [65, 66, 67, 68, 69, 70, 71, 72, 73, 74, 75, 76, 77, 78, 79, 80, 81, 82,
   83, 84, 85, 86, 87, 88, 89, 90,
   97, 98, 99, 100, 101, 102, 103, 104, 105, 106, 107, 108, 109, 110, 111,
   112, 113, 114, 115, 116, 117, 118, 119, 120, 121, 122,
   48, 49, 50, 51, 52, 53, 54, 55, 56, 57, 43, 47]

/-- Character code of the sextet `i` (0-63). -/
def b64c (i : Nat) : Nat := b64chars.getD i 0

/-- Sextet value of an alphabet character code, `none` if not in the alphabet. -/
def b64index (c : Nat) : Option Nat :=
  let i := b64chars.indexOf c
  if i < 64 then some i else none

/-- Base64-encode a byte list three bytes at a time, padding with `=` (61). -/
def encodeChunks : List Nat → List Nat
  | [] => []
  | [a] => [b64c (a / 4), b64c (a % 4 * 16), 61, 61]
  | [a, b] => [b64c (a / 4), b64c (a % 4 * 16 + b / 16), b64c (b % 16 * 4), 61]
  | a :: b :: c :: rest =>
      b64c (a / 4) :: b64c (a % 4 * 16 + b / 16) :: b64c (b % 16 * 4 + c / 64) ::
        b64c (c % 64) :: encodeChunks rest

/-- The unpadded part of `encodeChunks` (everything before the `=` signs). -/
def cleanEnc : List Nat → List Nat
  | [] => []
  | [a] => [b64c (a / 4), b64c (a % 4 * 16)]
  | [a, b] => [b64c (a / 4), b64c (a % 4 * 16 + b / 16), b64c (b % 16 * 4)]
  | a :: b :: c :: rest =>
      b64c (a / 4) :: b64c (a % 4 * 16 + b / 16) :: b64c (b % 16 * 4 + c / 64) ::
        b64c (c % 64) :: cleanEnc rest

/-- Number of `=` padding characters `encodeChunks` appends. -/
def padCount : List Nat → Nat
  | [] => 0
  | [_] => 2
  | [_, _] => 1
  | _ :: _ :: _ :: rest => padCount rest

/-- The sextet values (before the alphabet mapping) of a byte list. -/
def rawSex : List Nat → List Nat
  | [] => []
  | [a] => [a / 4, a % 4 * 16]
  | [a, b] => [a / 4, a % 4 * 16 + b / 16, b % 16 * 4]
  | a :: b :: c :: rest =>
      a / 4 :: (a % 4 * 16 + b / 16) :: (b % 16 * 4 + c / 64) :: c % 64 :: rawSex rest

/-- `btoa`: fails (throws) when a code unit is outside Latin-1. -/
def btoa (s : List Nat) : Option (List Nat) :=
  if s.all (fun c => c < 256) then some (encodeChunks s) else none

/-- Strip at most two trailing `=` characters (forgiving-base64 step 2). -/
def dropTrailingEq (s : List Nat) : List Nat :=
  if s.getLast? = some 61 then
    let s1 := s.dropLast
    if s1.getLast? = some 61 then s1.dropLast else s1
  else s

/-- Map every character to its sextet, failing on non-alphabet characters. -/
def sextetsOf : List Nat → Option (List Nat)
  | [] => some []
  | c :: rest =>
      match b64index c, sextetsOf rest with
      | some i, some is => some (i :: is)
      | _, _ => none

/-- Reassemble bytes from sextets, four sextets to three bytes, with the
forgiving-base64 handling of a leftover group of two or three sextets. -/
def decodeQuads : List Nat → List Nat
  | w :: x :: y :: z :: rest =>
      (w * 4 + x / 16) :: (x % 16 * 16 + y / 4) :: (y % 4 * 64 + z) :: decodeQuads rest
  | [w, x] => [w * 4 + x / 16]
  | [w, x, y] => [w * 4 + x / 16, x % 16 * 16 + y / 4]
  | _ => []

/-- `atob`: forgiving-base64 decode, `none` on malformed input. -/
def atob (s : List Nat) : Option (List Nat) :=
  let s1 := if s.length % 4 = 0 then dropTrailingEq s else s
  if s1.length % 4 = 1 then none
  else (sextetsOf s1).map decodeQuads

/-! ## The XOR cipher (`encrypt` / `decrypt`, broadcast-event.js 190-221) -/

/-- The per-character mixing step shared by `encrypt` and `decrypt`:
character code XOR position-cycled key character XOR `i % 256`, starting
at position `i`. -/
def xorMix (key : List Nat) : Nat → List Nat → List Nat
  | _, [] => []
  | i, c :: rest =>
      (c ^^^ key.getD (i % key.length) 0 ^^^ i % 256) :: xorMix key (i + 1) rest

/-- `encrypt(input, key)` (line 190): throws when the key is falsy, mixes
every character with the position-cycled key, then base64-encodes; `btoa`
throws when a mixed character exceeds 255. -/
def encrypt (input key : List Nat) : Option (List Nat) :=
  if key.isEmpty then none
  else btoa (xorMix key 0 input)

/-- `decrypt(input, key)` (line 209): throws when the key is falsy,
base64-decodes, then applies the same involutive mixing step. -/
def decrypt (input key : List Nat) : Option (List Nat) :=
  if key.isEmpty then none
  else (atob input).map (xorMix key 0)

/-! ## The dedup cache (`alreadyBroadcast`, broadcast-event.js 99-129)

`recentEvents` is modelled as an association list from dedup token to the
`Date.now()` time it was recorded. The fresh token that
`stringHash(sender + type + performance.now() + Math.random())` mints is
passed in as `freshId`: per spec section 4.1 the hash is never invoked
twice on the same input, so a run supplies globally distinct values. -/

/-- The result of `alreadyBroadcast`: the flag it returns, plus the
`payload.eventIds` array and the `recentEvents` object after the call
(both are mutated in place by the JavaScript). -/
structure ABResult where
  suppressed : Bool
  eventIds : List Nat
  cache : List (Nat × Int)
deriving Repr, DecidableEq

/-- Lines 104-109: lazily delete every entry older than 30 seconds. -/
def purgeCache (now : Int) (cache : List (Nat × Int)) : List (Nat × Int) :=
  cache.filter (fun kv => !decide (kv.2 < now - 30000))

/-- `recentEvents[i] !== undefined`. -/
def cacheHas (cache : List (Nat × Int)) (i : Nat) : Bool :=
  cache.any (fun kv => kv.1 == i)

/-- `alreadyBroadcast(payload)` (lines 99-129): purge expired entries,
suppress when any carried id is a live cache key, otherwise append a fresh
id to the payload and record it in the cache at the current time. -/
def alreadyBroadcast (now : Int) (freshId : Nat) (eventIds : List Nat)
    (cache : List (Nat × Int)) : ABResult :=
  let purged := purgeCache now cache
  if eventIds.any (fun i => cacheHas purged i) then
    { suppressed := true, eventIds := eventIds, cache := purged }
  else
    { suppressed := false, eventIds := eventIds ++ [freshId],
      cache := (freshId, now) :: purged }

/-! ## One context's `broadcastEvent` call (broadcast-event.js 31-92)

A context is one window running the library: its immutable `originId`
(minted once at load, line 16) and its `recentEvents` cache. The window
environment supplies whether `window.parent === window` and, for each
entry of `window.frames`, whether that frame is the window itself (the
self test performed by `sendEvent`, line 160). `JSON.stringify` is a
platform parameter `stringify`. -/

/-- The caller's `eventData` object: the two protocol properties the
library reads and writes, plus the caller's own fields, opaque here. -/
structure EventData where
  originId : Option String := none
  targetId : Option String := none
  fields : List (String × String) := []
deriving Repr, DecidableEq

/-- A JavaScript value sitting in `payload.detail`: the event-data object,
a string (the ciphertext form), or `null` (after a failed decrypt). -/
inductive Detail where
  | obj (d : EventData)
  | str (s : List Nat)
  | null
deriving Repr, DecidableEq

/-- JavaScript truthiness of a `detail` value: objects are always truthy,
strings are truthy when non-empty, `null` is falsy. -/
def Detail.truthy : Detail → Bool
  | .obj _ => true
  | .str s => !s.isEmpty
  | .null => false

/-- The wire payload `{ type, detail, eventIds, debug }` posted between
windows (structured-cloned by `postMessage`, so each receiver gets its
own copy). -/
structure Message where
  type : String
  detail : Detail
  eventIds : List Nat
  debug : Bool
deriving Repr, DecidableEq

/-- Destination of one `sendEvent` call: the parent window or child frame `i`. -/
inductive SendTarget where
  | parent
  | child (i : Nat)
deriving Repr, DecidableEq

/-- The `options` bag: the three public options plus the internal
`_eventIds` array the message handler threads through. -/
structure BOptions where
  encrypt : Bool := false
  target : Option String := none
  debug : Bool := false
  eventIds : Option (List Nat) := none
deriving Repr, DecidableEq

/-- One context's library state: its origin identity and dedup cache. -/
structure Ctx where
  originId : String
  cache : List (Nat × Int) := []
deriving Repr, DecidableEq

/-- The window environment: `window.parent === window` and, per entry of
`window.frames`, whether that frame is the window itself. -/
structure Env where
  parentIsSelf : Bool
  children : List Bool := []
deriving Repr, DecidableEq

/-- Observable outcome of one `broadcastEvent` call: a thrown error if
any, the local `dispatchEvent` (name and detail) if it fired, the
caller's `eventData` object after the in-place mutations, the
`eventIds` array after the call (the very array passed in
`options._eventIds`), the suppression flag, the new cache, and every
`postMessage` performed with its destination. -/
structure BResult where
  error : Option String := none
  dispatched : Option (String × EventData) := none
  data : EventData := {}
  eventIds : List Nat := []
  suppressed : Bool := false
  cache : List (Nat × Int) := []
  sent : List (SendTarget × Message) := []
deriving Repr, DecidableEq

/-- `sendEvent(targetWindow, payload)` (lines 157-168): a no-op when the
target is the window itself, otherwise one `postMessage`. -/
def sendEvent (isSelf : Bool) (t : SendTarget) (m : Message) :
    List (SendTarget × Message) :=
  if isSelf then [] else [(t, m)]

/-- Lines 42-45: `if (!eventData._originId) eventData._originId = originId`. -/
def stampOrigin (ctx : Ctx) (d : EventData) : EventData :=
  if jsFalsy d.originId then { d with originId := some ctx.originId } else d

/-- Line 48: `eventData._targetId = eventData._targetId || options.target`. -/
def stampTarget (t : Option String) (d : EventData) : EventData :=
  if jsFalsy d.targetId then { d with targetId := t } else d

/-- The body of `broadcastEvent` from line 36 on, once `eventData` has
been defaulted to an object `d0`. Mirrors lines 36-92 in order: stamp
`_originId` when falsy, stamp `_targetId` from `options.target` when
falsy, build the payload, run the dedup check, fire locally when
untargeted or self-targeted, optionally encrypt (a throw here aborts the
relay but not the already-performed local dispatch), then relay to the
parent (when distinct from self) and to every frame. -/
def broadcastCore (ctx : Ctx) (env : Env) (stringify : EventData → List Nat)
    (now : Int) (freshTok : Nat) (eventName : String) (d0 : EventData)
    (options : BOptions) : BResult :=
  let d2 := stampTarget options.target (stampOrigin ctx d0)
  let ids0 := options.eventIds.getD []
  let ab := alreadyBroadcast now freshTok ids0 ctx.cache
  if ab.suppressed then
    { error := none, dispatched := none, data := d2, eventIds := ab.eventIds,
      suppressed := true, cache := ab.cache, sent := [] }
  else
    let fire := jsFalsy d2.targetId || (d2.targetId == some ctx.originId)
    let disp := if fire then some (eventName, d2) else none
    let encKey := d2.originId.getD ""
    let detOut : Option Detail :=
      if options.encrypt then
        (encrypt (stringify d2) (strCodes encKey)).map
          (fun cipher => Detail.str (strCodes "BE:" ++ cipher ++ [58] ++ strCodes encKey))
      else some (Detail.obj d2)
    match detOut with
    | none =>
        { error := some "encrypt threw", dispatched := disp, data := d2,
          eventIds := ab.eventIds, suppressed := false, cache := ab.cache, sent := [] }
    | some det =>
        let msg : Message :=
          { type := eventName, detail := det, eventIds := ab.eventIds,
            debug := options.debug }
        let ups := if env.parentIsSelf then [] else sendEvent env.parentIsSelf .parent msg
        let downs := env.children.enum.flatMap
          (fun p => sendEvent p.2 (.child p.1) msg)
        { error := none, dispatched := disp, data := d2, eventIds := ab.eventIds,
          suppressed := false, cache := ab.cache, sent := ups ++ downs }

/-- `broadcastEvent(eventName, eventData, options)` (lines 31-92). Line 33
throws `eventData must be an object` for a truthy non-object argument
(in this model: a non-empty string); line 36 defaults `null`, `undefined`
and the empty string to an empty object. -/
def broadcastEvent (ctx : Ctx) (env : Env) (stringify : EventData → List Nat)
    (now : Int) (freshTok : Nat) (eventName : String) (eventData : Detail)
    (options : BOptions) : BResult :=
  match eventData with
  | .obj d => broadcastCore ctx env stringify now freshTok eventName d options
  | .null => broadcastCore ctx env stringify now freshTok eventName {} options
  | .str s =>
      if s.isEmpty then broadcastCore ctx env stringify now freshTok eventName {} options
      else
        { error := some "eventData must be an object", dispatched := none,
          data := {}, eventIds := options.eventIds.getD [], suppressed := false,
          cache := ctx.cache, sent := [] }

/-- The inbound message handler (lines 228-263). `sourceIsSelf` models
`event.source === window`; `wrapped` is `event.data._broadcast` when the
wrapper key is present and of the right shape, `none` otherwise;
`jsonParse` is the platform `JSON.parse` producing an event-data object.
A `detail` string starting with `BE:` is split on `:` and decrypted;
a failure (thrown by `decrypt` or by `JSON.parse`) is caught and replaces
the detail with `null`. The unwrapped envelope is then re-broadcast with
the carried `eventIds` and `debug` (the payload carries no `target` key,
so `options.target` is `undefined`). -/
def handleMessage (ctx : Ctx) (env : Env) (stringify : EventData → List Nat)
    (jsonParse : List Nat → Option EventData) (now : Int) (freshTok : Nat)
    (sourceIsSelf : Bool) (wrapped : Option Message) : Option BResult :=
  if sourceIsSelf then none
  else
    match wrapped with
    | none => none
    | some m =>
        if !m.detail.truthy then none
        else
          let det : Detail :=
            match m.detail with
            | .str s =>
                if (strCodes "BE:").isPrefixOf s then
                  let parts := s.splitOn 58
                  match (decrypt (parts.getD 1 []) (parts.getD 2 [])).bind jsonParse with
                  | some d => Detail.obj d
                  | none => Detail.null
                else m.detail
            | d => d
          some (broadcastEvent ctx env stringify now freshTok m.type det
            { encrypt := false, target := none, debug := m.debug,
              eventIds := some m.eventIds })

/-- One relay hop: the receiving context, its window environment, its
platform functions, its clock and the fresh token its `stringHash` call
mints. -/
structure Hop where
  ctx : Ctx
  env : Env
  stringify : EventData → List Nat
  jsonParse : List Nat → Option EventData
  now : Int
  freshTok : Nat

/-- The messages a hop posts onward when its handler processes `m`
(`event.source === window` is false for a message from another window). -/
def hopSends (h : Hop) (m : Message) : List Message :=
  match handleMessage h.ctx h.env h.stringify h.jsonParse h.now h.freshTok
      false (some m) with
  | some r => r.sent.map (fun p => p.2)
  | none => []

/-- `m'` is relayed from `m` by some context of the tree. -/
def RelayStep (m m' : Message) : Prop :=
  ∃ h : Hop, m' ∈ hopSends h m

/-- `m'` is relayed from `m` by some context whose origin identity is not
`t` (used to express a target matching no context in the tree). -/
def RelayStepAvoiding (t : String) (m m' : Message) : Prop :=
  ∃ h : Hop, h.ctx.originId ≠ t ∧ m' ∈ hopSends h m

/-! ## Tree-wide propagation (claim C1)

A whole tree of contexts, each running broadcast-event.js. The state a
relay step touches is the per-context `recentEvents` cache, the
in-flight `postMessage`s and the per-context count of local
`dispatchEvent` firings; the claim is about an untargeted, unencrypted
broadcast, whose `detail` does not influence control flow (theorems
`C2`/`C4`/`C5` establish that at the single-call level), so in-flight
payloads are reduced to their `eventIds` arrays.

The tree is presented re-rooted at the originating context: `pred v` is
the neighbour of `v` on the path towards the origin `o` (`pred o = o`),
and `depth` witnesses acyclicity. This loses nothing: a context always
relays to its parent window and to every child frame alike, i.e. to all
its tree neighbours, so the dynamics depend only on the neighbour
relation. Dedup tokens are minted from a global counter (spec section
4.1: the hash is never invoked twice on the same input), and every
delivery happens at time 0, within the 30-second expiry window the spec
assumes for one propagation. -/

/-- A finite tree on `Fin n` re-rooted at the origin `o`: `pred` points
one step towards `o`, and `depth` decreases along `pred`. -/
structure Tree (n : Nat) where
  o : Fin n
  pred : Fin n → Fin n
  depth : Fin n → Nat
  predo : pred o = o
  hdepth : ∀ v, v ≠ o → depth (pred v) < depth v

/-- The contexts whose `pred` is `v`: together with `pred v` these are
`v`'s tree neighbours (its parent window and child frames). -/
def childList {n : Nat} (T : Tree n) (v : Fin n) : List (Fin n) :=
  (List.finRange n).filter (fun w => decide (T.pred w = v ∧ w ≠ v))

/-- All tree neighbours of `v`: the windows `v` relays to (lines 77-91). -/
def neighborList {n : Nat} (T : Tree n) (v : Fin n) : List (Fin n) :=
  (if T.pred v = v then [] else [T.pred v]) ++ childList T v

/-- `u` and `v` are adjacent in the tree. -/
def Adj {n : Nat} (T : Tree n) (u v : Fin n) : Prop :=
  u ≠ v ∧ (T.pred u = v ∨ T.pred v = u)

/-- Global state of one propagation: each context's `recentEvents`
cache, the in-flight messages (destination context and carried
`eventIds`), each context's count of local firings, and the token
counter supplying fresh dedup tokens. -/
structure NetState (n : Nat) where
  cache : Fin n → List (Nat × Int)
  inflight : List (Fin n × List Nat)
  fired : Fin n → Nat
  nextTok : Nat

/-- Deliver the in-flight message `(d, ids)`: context `d` runs
`broadcastEvent`, i.e. `alreadyBroadcast` on its own cache; when
suppressed it stops, otherwise it fires locally once and posts the grown
envelope to every tree neighbour. -/
def deliverAt {n : Nat} (T : Tree n) (d : Fin n) (ids : List Nat)
    (s : NetState n) : NetState n :=
  let ab := alreadyBroadcast 0 s.nextTok ids (s.cache d)
  if ab.suppressed then
    { s with inflight := s.inflight.erase (d, ids),
             cache := Function.update s.cache d ab.cache }
  else
    { cache := Function.update s.cache d ab.cache,
      inflight := s.inflight.erase (d, ids) ++
        (neighborList T d).map (fun w => (w, ab.eventIds)),
      fired := Function.update s.fired d (s.fired d + 1),
      nextTok := s.nextTok + 1 }

/-- One asynchronous step: some in-flight message is delivered. -/
def Step {n : Nat} (T : Tree n) (s s' : NetState n) : Prop :=
  ∃ d ids, (d, ids) ∈ s.inflight ∧ s' = deliverAt T d ids s

/-- The state right after the originating call `broadcastEvent(name, data)`
at `o` on a quiescent tree: fresh caches everywhere, `options._eventIds`
absent so the envelope starts empty, hence `o` is not suppressed, fires
locally, mints token 0 and posts `[0]` to every neighbour. -/
def state0 {n : Nat} (T : Tree n) : NetState n :=
  { cache := Function.update (fun _ => []) T.o [(0, 0)],
    inflight := (neighborList T T.o).map (fun w => (w, [0])),
    fired := Function.update (fun _ => 0) T.o 1,
    nextTok := 1 }

/-- States reachable from the originating broadcast. -/
def Reachable {n : Nat} (T : Tree n) (s : NetState n) : Prop :=
  Relation.ReflTransGen (Step T) (state0 T) s

/-- The path from the origin to `v` (inclusive), along `pred`. -/
def chainL {n : Nat} (T : Tree n) (v : Fin n) : List (Fin n) :=
  if h : v = T.o then [v]
  else chainL T (T.pred v) ++ [v]
termination_by T.depth v
decreasing_by exact T.hdepth v h

/-- The `eventIds` array of the envelope relayed onward by `v`: one token
per hop of the path from the origin to `v`, under token assignment `tok`. -/
def msgIds {n : Nat} (T : Tree n) (tok : Fin n → Nat) (v : Fin n) : List Nat :=
  (chainL T v).map tok

/-- The run invariant. `F` is the set of contexts that have fired (a
subtree containing the origin) and `tok v` the dedup token `v` minted
when it did. Every in-flight message was posted by a fired context `u`
to a neighbour and carries exactly the path tokens up to `u`; the fresh
copy heading to an unfired context is in flight exactly once, and the
copy a fired context consumed is gone. -/
structure InvData {n : Nat} (T : Tree n) (s : NetState n)
    (F : Finset (Fin n)) (tok : Fin n → Nat) : Prop where
  root_mem : T.o ∈ F
  closed : ∀ v ∈ F, v ≠ T.o → T.pred v ∈ F
  fired_eq : ∀ v, s.fired v = if v ∈ F then 1 else 0
  cache_eq : ∀ v, s.cache v = if v ∈ F then [(tok v, 0)] else []
  tok_inj : ∀ u ∈ F, ∀ v ∈ F, tok u = tok v → u = v
  tok_lt : ∀ v ∈ F, tok v < s.nextTok
  msg_form : ∀ p ∈ s.inflight, ∃ u ∈ F, Adj T u p.1 ∧ p.2 = msgIds T tok u
  count_le : ∀ u ∈ F, ∀ d : Fin n, s.inflight.count (d, msgIds T tok u) ≤ 1
  fresh_pending : ∀ d, d ∉ F → T.pred d ∈ F →
    s.inflight.count (d, msgIds T tok (T.pred d)) = 1
  consumed : ∀ d ∈ F, d ≠ T.o →
    s.inflight.count (d, msgIds T tok (T.pred d)) = 0

/-- The invariant, with its ghost data packed existentially. -/
def Inv {n : Nat} (T : Tree n) (s : NetState n) : Prop :=
  ∃ F tok, InvData T s F tok

/-- Number of contexts that have not fired yet. -/
def unfiredCount {n : Nat} (s : NetState n) : Nat :=
  (Finset.univ.filter (fun v : Fin n => s.fired v = 0)).card

/-- Termination measure: every step strictly decreases it. -/
def netMeasure {n : Nat} (s : NetState n) : Nat :=
  (2 * n + 2) * unfiredCount s + s.inflight.length

/-- Concrete two-context tree (a page and one iframe) used to exercise the
propagation theorems on an explicit run. -/
def treeTwo : Tree 2 where
  o := 0
  pred := fun _ => 0
  depth := fun v => v.val
  predo := rfl
  hdepth := by decide

/-- Concrete relayed message used to exercise the targeting theorem: a
broadcast from origin `aaa` targeted at the unknown identity `zzz`. -/
def msgTargeted : Message where
  type := "a:b"
  detail := Detail.obj { originId := some "aaa", targetId := some "zzz", fields := [] }
  eventIds := [2]
  debug := false

/-- Concrete relayed message used to exercise the origin-identity
theorem: an untargeted broadcast from origin `oid`. -/
def msgPlainOid : Message where
  type := "a:b"
  detail := Detail.obj { originId := some "oid", targetId := none, fields := [] }
  eventIds := [2]
  debug := false

/-- Concrete inbound message with a malformed ciphertext detail (the bare
marker `BE:`, yielding no ciphertext and no key), used to exercise the
decrypt-failure recovery theorem. -/
def msgBadCipher : Message where
  type := "a:b"
  detail := Detail.str (strCodes "BE:")
  eventIds := []
  debug := false

/-! # Theorems -/

/-! ## Base64 and cipher lemmas -/

theorem b64index_b64c {i : Nat} (h : i < 64) : b64index (b64c i) = some i := by
  have hall : ∀ j : Fin 64, b64index (b64c j.val) = some j.val := by decide
  exact hall ⟨i, h⟩

theorem b64c_ne_61 {i : Nat} (h : i < 64) : b64c i ≠ 61 := by
  have hall : ∀ j : Fin 64, b64c j.val ≠ 61 := by decide
  exact hall ⟨i, h⟩

theorem encodeChunks_eq_cleanEnc (bs : List Nat) :
    encodeChunks bs = cleanEnc bs ++ List.replicate (padCount bs) 61 := by
  induction bs using encodeChunks.induct with
  | case1 => rfl
  | case2 a => rfl
  | case3 a b => rfl
  | case4 a b c rest ih => simp [encodeChunks, cleanEnc, padCount, ih]

theorem padCount_le_two (bs : List Nat) : padCount bs ≤ 2 := by
  induction bs using padCount.induct <;> simp [padCount, *]

theorem mem_cleanEnc {bs : List Nat} (hb : ∀ x ∈ bs, x < 256) :
    ∀ y ∈ cleanEnc bs, ∃ i, i < 64 ∧ y = b64c i := by
  induction bs using cleanEnc.induct with
  | case1 => simp [cleanEnc]
  | case2 a =>
      have ha : a < 256 := hb a (by simp)
      intro y hy
      simp only [cleanEnc, List.mem_cons, List.not_mem_nil, or_false] at hy
      rcases hy with rfl | rfl
      · exact ⟨a / 4, by omega, rfl⟩
      · exact ⟨a % 4 * 16, by omega, rfl⟩
  | case3 a b =>
      have ha : a < 256 := hb a (by simp)
      have hbb : b < 256 := hb b (by simp)
      intro y hy
      simp only [cleanEnc, List.mem_cons, List.not_mem_nil, or_false] at hy
      rcases hy with rfl | rfl | rfl
      · exact ⟨a / 4, by omega, rfl⟩
      · exact ⟨a % 4 * 16 + b / 16, by omega, rfl⟩
      · exact ⟨b % 16 * 4, by omega, rfl⟩
  | case4 a b c rest ih =>
      have ha : a < 256 := hb a (by simp)
      have hbb : b < 256 := hb b (by simp)
      have hc : c < 256 := hb c (by simp)
      intro y hy
      simp only [cleanEnc, List.mem_cons] at hy
      rcases hy with rfl | rfl | rfl | rfl | hy
      · exact ⟨a / 4, by omega, rfl⟩
      · exact ⟨a % 4 * 16 + b / 16, by omega, rfl⟩
      · exact ⟨b % 16 * 4 + c / 64, by omega, rfl⟩
      · exact ⟨c % 64, by omega, rfl⟩
      · exact ih (fun x hx => hb x (by simp [hx])) y hy

theorem cleanEnc_getLast_ne {bs : List Nat} (hb : ∀ x ∈ bs, x < 256) :
    (cleanEnc bs).getLast? ≠ some 61 := by
  rcases List.eq_nil_or_concat (cleanEnc bs) with h | ⟨l, x, h⟩
  · simp [h]
  · rw [h, List.concat_eq_append, List.getLast?_concat]
    intro hx
    have hx61 : x = 61 := by simpa using hx
    have hxm : x ∈ cleanEnc bs := by rw [h, List.concat_eq_append]; simp
    obtain ⟨i, hi, rfl⟩ := mem_cleanEnc hb x hxm
    exact b64c_ne_61 hi hx61

theorem dropTrailingEq_clean {l : List Nat} (hl : l.getLast? ≠ some 61)
    {k : Nat} (hk : k ≤ 2) : dropTrailingEq (l ++ List.replicate k 61) = l := by
  interval_cases k
  · simpa [dropTrailingEq] using fun h => absurd h hl
  · have h1 : l ++ List.replicate 1 61 = l ++ [61] := rfl
    rw [h1]
    unfold dropTrailingEq
    rw [if_pos (List.getLast?_concat l), List.dropLast_concat, if_neg hl]
  · have h2 : l ++ List.replicate 2 61 = (l ++ [61]) ++ [61] := by simp
    rw [h2]
    unfold dropTrailingEq
    rw [if_pos (List.getLast?_concat _), List.dropLast_concat,
      if_pos (List.getLast?_concat l), List.dropLast_concat]

theorem sextetsOf_cleanEnc {bs : List Nat} (hb : ∀ x ∈ bs, x < 256) :
    sextetsOf (cleanEnc bs) = some (rawSex bs) := by
  induction bs using cleanEnc.induct with
  | case1 => rfl
  | case2 a =>
      have ha : a < 256 := hb a (by simp)
      simp [cleanEnc, rawSex, sextetsOf, b64index_b64c (show a / 4 < 64 by omega),
        b64index_b64c (show a % 4 * 16 < 64 by omega)]
  | case3 a b =>
      have ha : a < 256 := hb a (by simp)
      have hbb : b < 256 := hb b (by simp)
      simp [cleanEnc, rawSex, sextetsOf, b64index_b64c (show a / 4 < 64 by omega),
        b64index_b64c (show a % 4 * 16 + b / 16 < 64 by omega),
        b64index_b64c (show b % 16 * 4 < 64 by omega)]
  | case4 a b c rest ih =>
      have ha : a < 256 := hb a (by simp)
      have hbb : b < 256 := hb b (by simp)
      have hc : c < 256 := hb c (by simp)
      have ihr := ih (fun x hx => hb x (by simp [hx]))
      simp [cleanEnc, rawSex, sextetsOf, ihr,
        b64index_b64c (show a / 4 < 64 by omega),
        b64index_b64c (show a % 4 * 16 + b / 16 < 64 by omega),
        b64index_b64c (show b % 16 * 4 + c / 64 < 64 by omega),
        b64index_b64c (show c % 64 < 64 by omega)]

theorem decodeQuads_rawSex {bs : List Nat} (hb : ∀ x ∈ bs, x < 256) :
    decodeQuads (rawSex bs) = bs := by
  induction bs using rawSex.induct with
  | case1 => rfl
  | case2 a =>
      have ha : a < 256 := hb a (by simp)
      simp only [rawSex, decodeQuads, List.cons.injEq, and_true]
      omega
  | case3 a b =>
      have ha : a < 256 := hb a (by simp)
      have hbb : b < 256 := hb b (by simp)
      simp only [rawSex, decodeQuads, List.cons.injEq, and_true]
      constructor
      · omega
      · omega
  | case4 a b c rest ih =>
      have ha : a < 256 := hb a (by simp)
      have hbb : b < 256 := hb b (by simp)
      have hc : c < 256 := hb c (by simp)
      have ihr := ih (fun x hx => hb x (by simp [hx]))
      simp only [rawSex, decodeQuads, List.cons.injEq, ihr, and_true]
      refine ⟨by omega, by omega, by omega⟩

theorem encodeChunks_length (bs : List Nat) : (encodeChunks bs).length % 4 = 0 := by
  induction bs using encodeChunks.induct with
  | case1 => rfl
  | case2 a => simp [encodeChunks]
  | case3 a b => simp [encodeChunks]
  | case4 a b c rest ih => simp only [encodeChunks, List.length_cons]; omega

theorem cleanEnc_length (bs : List Nat) : (cleanEnc bs).length % 4 ≠ 1 := by
  induction bs using cleanEnc.induct with
  | case1 => simp [cleanEnc]
  | case2 a => simp [cleanEnc]
  | case3 a b => simp [cleanEnc]
  | case4 a b c rest ih => simp only [cleanEnc, List.length_cons]; omega

theorem atob_encodeChunks {bs : List Nat} (hb : ∀ x ∈ bs, x < 256) :
    atob (encodeChunks bs) = some bs := by
  unfold atob
  rw [if_pos (encodeChunks_length bs), encodeChunks_eq_cleanEnc,
    dropTrailingEq_clean (cleanEnc_getLast_ne hb) (padCount_le_two bs),
    if_neg (cleanEnc_length bs), sextetsOf_cleanEnc hb]
  simp [decodeQuads_rawSex hb]

theorem btoa_of_latin1 {bs : List Nat} (hb : ∀ x ∈ bs, x < 256) :
    btoa bs = some (encodeChunks bs) := by
  unfold btoa
  rw [if_pos]
  simpa [List.all_eq_true] using hb

theorem xorMix_lt {key : List Nat} (hk : ∀ c ∈ key, c < 256) :
    ∀ (l : List Nat), (∀ c ∈ l, c < 256) → ∀ i, ∀ y ∈ xorMix key i l, y < 256 := by
  have h256 : (256 : Nat) = 2 ^ 8 := by norm_num
  intro l
  induction l with
  | nil => simp [xorMix]
  | cons c rest ih =>
      intro hl i y hy
      simp only [xorMix, List.mem_cons] at hy
      rcases hy with rfl | hy
      · have hc : c < 256 := hl c (by simp)
        have hkc : key.getD (i % key.length) 0 < 256 := by
          rcases Nat.eq_zero_or_pos key.length with hz | hp
          · rw [List.length_eq_zero.mp hz]; simp [List.getD]
          · have hlt : i % key.length < key.length := Nat.mod_lt _ hp
            rw [List.getD_eq_getElem _ _ hlt]
            exact hk _ (List.getElem_mem hlt)
        have h1 : c ^^^ key.getD (i % key.length) 0 < 256 := by
          rw [h256] at hc hkc ⊢
          exact Nat.xor_lt_two_pow hc hkc
        have h2 : i % 256 < 256 := Nat.mod_lt _ (by norm_num)
        rw [h256] at h1 h2 ⊢
        exact Nat.xor_lt_two_pow h1 h2
      · exact ih (fun x hx => hl x (by simp [hx])) (i + 1) y hy

theorem xor_mix_cancel (a k m : Nat) : ((a ^^^ k ^^^ m) ^^^ k) ^^^ m = a := by
  rw [Nat.xor_assoc (a ^^^ k) m k, Nat.xor_comm m k, ← Nat.xor_assoc (a ^^^ k) k m,
    Nat.xor_cancel_right, Nat.xor_cancel_right]

theorem xorMix_involutive (key : List Nat) :
    ∀ (l : List Nat) (i : Nat), xorMix key i (xorMix key i l) = l := by
  intro l
  induction l with
  | nil => intro i; rfl
  | cons c rest ih =>
      intro i
      simp only [xorMix, List.cons.injEq]
      exact ⟨xor_mix_cancel c _ _, ih (i + 1)⟩

theorem decrypt_encrypt_of_latin1 (input key : List Nat)
    (hin : ∀ c ∈ input, c < 256) (hk : ∀ c ∈ key, c < 256) (hkey : key ≠ []) :
    (encrypt input key).bind (fun c => decrypt c key) = some input := by
  have hne : key.isEmpty = false := by simpa [List.isEmpty_iff] using hkey
  have hmix : ∀ y ∈ xorMix key 0 input, y < 256 := xorMix_lt hk input hin 0
  unfold encrypt decrypt
  rw [hne, btoa_of_latin1 hmix]
  simp [atob_encodeChunks hmix, xorMix_involutive]

/-! ## Claim C7 -/

/-- C7 as frozen is refuted at a concrete input: for the one-character
payload string with code unit 256 (the first character outside Latin-1,
e.g. a codepoint produced by JSON-serializing a non-ASCII payload field)
and the non-empty key string consisting of the single character code 97,
mixing yields the character code 353 and `btoa` throws, so
`decrypt(encrypt(input, key), key)` does not return the input. -/
theorem c7_cipher_roundtrip_counterexample :
    ¬ ((encrypt [256] [97]).bind (fun c => decrypt c [97]) = some [256]) := by
  decide

/-- C7 (amended): for any serialized payload string and any non-empty key
string whose UTF-16 code units are all below 256 (Latin-1), decrypting
the encryption with the same key returns exactly the original string, so
deserializing yields a value deep-equal to the original payload; the
restriction to Latin-1 is forced because `btoa` throws on any larger
code unit. -/
theorem c7_cipher_roundtrip (input key : List Nat)
    (hin : ∀ c ∈ input, c < 256) (hk : ∀ c ∈ key, c < 256) (hkey : key ≠ []) :
    (encrypt input key).bind (fun c => decrypt c key) = some input :=
  decrypt_encrypt_of_latin1 input key hin hk hkey

/-- The amended round-trip law evaluated on the concrete payload string
with code units 72, 105 and the key with code unit 107. -/
theorem c7_cipher_roundtrip_witness :
    (∀ c ∈ ([72, 105] : List Nat), c < 256) ∧ (∀ c ∈ ([107] : List Nat), c < 256) ∧
      ([107] : List Nat) ≠ [] ∧
      (encrypt [72, 105] [107]).bind (fun c => decrypt c [107]) = some [72, 105] :=
  ⟨by decide, by decide, by decide,
    c7_cipher_roundtrip [72, 105] [107] (by decide) (by decide) (by decide)⟩

/-! ## Single-call lemmas about `broadcastEvent` -/

theorem isEmpty_false_of_ne {s : String} (h : s ≠ "") : s.isEmpty = false := by
  cases he : s.isEmpty
  · rfl
  · exact absurd ((String.isEmpty_iff s).mp he) h

theorem jsFalsy_some_of_ne {s : String} (h : s ≠ "") : jsFalsy (some s) = false := by
  simp [jsFalsy, isEmpty_false_of_ne h]

@[simp] theorem stampOrigin_originId (ctx : Ctx) (d : EventData) :
    (stampOrigin ctx d).originId =
      if jsFalsy d.originId then some ctx.originId else d.originId := by
  unfold stampOrigin; split <;> rfl

@[simp] theorem stampOrigin_targetId (ctx : Ctx) (d : EventData) :
    (stampOrigin ctx d).targetId = d.targetId := by
  unfold stampOrigin; split <;> rfl

@[simp] theorem stampOrigin_fields (ctx : Ctx) (d : EventData) :
    (stampOrigin ctx d).fields = d.fields := by
  unfold stampOrigin; split <;> rfl

@[simp] theorem stampTarget_originId (t : Option String) (d : EventData) :
    (stampTarget t d).originId = d.originId := by
  unfold stampTarget; split <;> rfl

@[simp] theorem stampTarget_targetId (t : Option String) (d : EventData) :
    (stampTarget t d).targetId = if jsFalsy d.targetId then t else d.targetId := by
  unfold stampTarget; split <;> rfl

@[simp] theorem stampTarget_fields (t : Option String) (d : EventData) :
    (stampTarget t d).fields = d.fields := by
  unfold stampTarget; split <;> rfl

theorem alreadyBroadcast_spec (now : Int) (ft : Nat) (ids : List Nat)
    (cache : List (Nat × Int)) :
    (ids.any (fun i => cacheHas (purgeCache now cache) i) = true ∧
      alreadyBroadcast now ft ids cache =
        { suppressed := true, eventIds := ids, cache := purgeCache now cache }) ∨
    (ids.any (fun i => cacheHas (purgeCache now cache) i) = false ∧
      alreadyBroadcast now ft ids cache =
        { suppressed := false, eventIds := ids ++ [ft],
          cache := (ft, now) :: purgeCache now cache }) := by
  by_cases h : ids.any (fun i => cacheHas (purgeCache now cache) i) = true
  · exact Or.inl ⟨h, by simp [alreadyBroadcast, h]⟩
  · exact Or.inr ⟨by simpa using h, by simp [alreadyBroadcast, h]⟩

theorem alreadyBroadcast_suppressed_iff (now : Int) (ft : Nat) (ids : List Nat)
    (cache : List (Nat × Int)) :
    (alreadyBroadcast now ft ids cache).suppressed = true ↔
      ∃ i ∈ ids, ∃ t : Int, (i, t) ∈ cache ∧ ¬ t < now - 30000 := by
  have key : ids.any (fun i => cacheHas (purgeCache now cache) i) = true ↔
      ∃ i ∈ ids, ∃ t : Int, (i, t) ∈ cache ∧ ¬ t < now - 30000 := by
    simp only [List.any_eq_true, cacheHas, purgeCache, List.mem_filter, beq_iff_eq,
      Bool.not_eq_true', decide_eq_false_iff_not]
    constructor
    · rintro ⟨i, hi, ⟨k1, k2⟩, ⟨hkvc, hkvt⟩, hkv1⟩
      have hk1 : k1 = i := hkv1
      subst hk1
      exact ⟨k1, hi, k2, hkvc, hkvt⟩
    · rintro ⟨i, hi, t, htc, htt⟩
      exact ⟨i, hi, (i, t), ⟨htc, htt⟩, rfl⟩
  rcases alreadyBroadcast_spec now ft ids cache with ⟨h, heq⟩ | ⟨h, heq⟩
  · rw [heq]
    exact ⟨fun _ => key.mp h, fun _ => rfl⟩
  · rw [heq]
    constructor
    · intro hh
      exact absurd hh (by simp)
    · intro hex
      exact absurd (key.mpr hex) (by simp [h])

theorem broadcastCore_suppressed {ctx : Ctx} {env : Env} {sf : EventData → List Nat}
    {now : Int} {ft : Nat} {name : String} {d0 : EventData} {options : BOptions}
    (h : (alreadyBroadcast now ft (options.eventIds.getD []) ctx.cache).suppressed = true) :
    broadcastCore ctx env sf now ft name d0 options =
      { error := none, dispatched := none,
        data := stampTarget options.target (stampOrigin ctx d0),
        eventIds := (alreadyBroadcast now ft (options.eventIds.getD []) ctx.cache).eventIds,
        suppressed := true,
        cache := (alreadyBroadcast now ft (options.eventIds.getD []) ctx.cache).cache,
        sent := [] } := by
  simp only [broadcastCore, h, if_true]

theorem broadcastCore_fresh_plain {ctx : Ctx} {env : Env} {sf : EventData → List Nat}
    {now : Int} {ft : Nat} {name : String} {d0 : EventData} {options : BOptions}
    (henc : options.encrypt = false)
    (h : (alreadyBroadcast now ft (options.eventIds.getD []) ctx.cache).suppressed = false) :
    broadcastCore ctx env sf now ft name d0 options =
      (let d2 := stampTarget options.target (stampOrigin ctx d0)
       let ab := alreadyBroadcast now ft (options.eventIds.getD []) ctx.cache
       let msg : Message :=
         { type := name, detail := Detail.obj d2, eventIds := ab.eventIds,
           debug := options.debug }
       { error := none,
         dispatched :=
           if jsFalsy d2.targetId || (d2.targetId == some ctx.originId) then
             some (name, d2)
           else none,
         data := d2, eventIds := ab.eventIds, suppressed := false, cache := ab.cache,
         sent := (if env.parentIsSelf then [] else [(SendTarget.parent, msg)]) ++
           env.children.enum.flatMap
             (fun p => if p.2 then [] else [(SendTarget.child p.1, msg)]) }) := by
  simp only [broadcastCore, h, Bool.false_eq_true, if_false, henc, sendEvent]
  by_cases hp : env.parentIsSelf <;> simp [hp]

@[simp] theorem broadcastEvent_obj (ctx : Ctx) (env : Env) (sf : EventData → List Nat)
    (now : Int) (ft : Nat) (name : String) (d0 : EventData) (opts : BOptions) :
    broadcastEvent ctx env sf now ft name (Detail.obj d0) opts =
      broadcastCore ctx env sf now ft name d0 opts := rfl

theorem broadcastCore_fresh_common {ctx : Ctx} (env : Env) (sf : EventData → List Nat)
    {now : Int} {ft : Nat} (name : String) (d0 : EventData) {options : BOptions}
    (h : (alreadyBroadcast now ft (options.eventIds.getD []) ctx.cache).suppressed = false) :
    (broadcastCore ctx env sf now ft name d0 options).suppressed = false ∧
    (broadcastCore ctx env sf now ft name d0 options).eventIds =
      (alreadyBroadcast now ft (options.eventIds.getD []) ctx.cache).eventIds ∧
    (broadcastCore ctx env sf now ft name d0 options).cache =
      (alreadyBroadcast now ft (options.eventIds.getD []) ctx.cache).cache ∧
    (broadcastCore ctx env sf now ft name d0 options).data =
      stampTarget options.target (stampOrigin ctx d0) ∧
    (broadcastCore ctx env sf now ft name d0 options).dispatched =
      (if jsFalsy (stampTarget options.target (stampOrigin ctx d0)).targetId ||
          ((stampTarget options.target (stampOrigin ctx d0)).targetId == some ctx.originId) then
        some (name, stampTarget options.target (stampOrigin ctx d0))
      else none) := by
  simp only [broadcastCore, h, Bool.false_eq_true, if_false]
  split <;> simp

/-! ## Claim C2 -/

/-- C2: `alreadyBroadcast` reports suppression exactly when some token in
the envelope's `eventIds` is a live (unexpired) key of this context's
cache; on suppression `broadcastEvent` neither fires locally, nor relays,
nor appends a token, nor adds a cache entry; otherwise it appends exactly
the one freshly minted token to the envelope and records it in the cache
at the current time. -/
theorem c2_dedup_check :
    (∀ (now : Int) (ft : Nat) (ids : List Nat) (cache : List (Nat × Int)),
      ((alreadyBroadcast now ft ids cache).suppressed = true ↔
        ∃ i ∈ ids, ∃ t : Int, (i, t) ∈ cache ∧ ¬ t < now - 30000)) ∧
    (∀ (ctx : Ctx) (env : Env) (sf : EventData → List Nat) (now : Int) (ft : Nat)
        (name : String) (d0 : EventData) (opts : BOptions),
      ((broadcastEvent ctx env sf now ft name (Detail.obj d0) opts).suppressed = true →
        (broadcastEvent ctx env sf now ft name (Detail.obj d0) opts).dispatched = none ∧
        (broadcastEvent ctx env sf now ft name (Detail.obj d0) opts).sent = [] ∧
        (broadcastEvent ctx env sf now ft name (Detail.obj d0) opts).eventIds =
          opts.eventIds.getD [] ∧
        ∀ e ∈ (broadcastEvent ctx env sf now ft name (Detail.obj d0) opts).cache,
          e ∈ ctx.cache) ∧
      ((broadcastEvent ctx env sf now ft name (Detail.obj d0) opts).suppressed = false →
        (broadcastEvent ctx env sf now ft name (Detail.obj d0) opts).eventIds =
          opts.eventIds.getD [] ++ [ft] ∧
        (broadcastEvent ctx env sf now ft name (Detail.obj d0) opts).cache =
          (ft, now) :: purgeCache now ctx.cache)) := by
  refine ⟨alreadyBroadcast_suppressed_iff, ?_⟩
  intro ctx env sf now ft name d0 opts
  simp only [broadcastEvent_obj]
  rcases alreadyBroadcast_spec now ft (opts.eventIds.getD []) ctx.cache with ⟨_, heq⟩ | ⟨_, heq⟩
  · have hsup : (alreadyBroadcast now ft (opts.eventIds.getD []) ctx.cache).suppressed = true := by
      rw [heq]
    rw [broadcastCore_suppressed hsup, heq]
    refine ⟨fun _ => ⟨rfl, rfl, rfl, fun e he => ?_⟩, fun hf => absurd hf (by simp)⟩
    exact List.mem_of_mem_filter he
  · have hsup : (alreadyBroadcast now ft (opts.eventIds.getD []) ctx.cache).suppressed = false := by
      rw [heq]
    obtain ⟨hs, hids, hcache, _, _⟩ :=
      broadcastCore_fresh_common env sf name d0 hsup
    rw [hs, hids, hcache, heq]
    exact ⟨fun hf => absurd hf (by simp), fun _ => ⟨rfl, rfl⟩⟩

/-- The C2 theorem evaluated on a suppressed echo (token 5 live in the
cache) and on a fresh broadcast (empty cache, fresh token 7). -/
theorem c2_dedup_check_witness :
    (broadcastEvent ⟨"w", [(5, 0)]⟩ ⟨true, []⟩ (fun _ => []) 0 7 "a:b"
        (Detail.obj {}) { eventIds := some [5] }).suppressed = true ∧
    (broadcastEvent ⟨"w", [(5, 0)]⟩ ⟨true, []⟩ (fun _ => []) 0 7 "a:b"
        (Detail.obj {}) { eventIds := some [5] }).dispatched = none ∧
    (broadcastEvent ⟨"w", []⟩ ⟨true, []⟩ (fun _ => []) 0 7 "a:b"
        (Detail.obj {}) {}).suppressed = false ∧
    (broadcastEvent ⟨"w", []⟩ ⟨true, []⟩ (fun _ => []) 0 7 "a:b"
        (Detail.obj {}) {}).eventIds = [7] := by
  refine ⟨by decide, ?_, by decide, ?_⟩
  · exact ((c2_dedup_check.2 ⟨"w", [(5, 0)]⟩ ⟨true, []⟩ (fun _ => []) 0 7 "a:b" {}
      { eventIds := some [5] }).1 (by decide)).1
  · exact ((c2_dedup_check.2 ⟨"w", []⟩ ⟨true, []⟩ (fun _ => []) 0 7 "a:b" {}
      {}).2 (by decide)).1

/-! ## Claim C3 -/

/-- C3 as frozen is refuted at a concrete input: calling `broadcastEvent`
with the name string that contains no `:` raises no error at all, and the
call fires locally and relays to the parent window, because the shipped
version of broadcast-event.js performs no event-name validation (the
namespace check exists only in the historical variants). -/
theorem c3_name_validation_counterexample :
    ':' ∉ "noColon".data ∧
    (broadcastEvent ⟨"cid", []⟩ ⟨false, []⟩ (fun _ => []) 0 7 "noColon"
        (Detail.obj {}) {}).error = none ∧
    (broadcastEvent ⟨"cid", []⟩ ⟨false, []⟩ (fun _ => []) 0 7 "noColon"
        (Detail.obj {}) {}).dispatched =
      some ("noColon", { originId := some "cid", targetId := none, fields := [] }) ∧
    (broadcastEvent ⟨"cid", []⟩ ⟨false, []⟩ (fun _ => []) 0 7 "noColon"
        (Detail.obj {}) {}).sent ≠ [] := by
  refine ⟨by decide, by decide, by decide, by decide⟩

/-- C3 (amended): `broadcastEvent` performs no event-name validation:
whatever the name, including one with no `:`, the call never fails with
an InvalidEventName error (no such error exists in the code), and when
not suppressed and untargeted it still fires locally. -/
theorem c3_no_name_validation (ctx : Ctx) (env : Env) (sf : EventData → List Nat)
    (now : Int) (ft : Nat) (name : String) (d0 : EventData) (opts : BOptions)
    (henc : opts.encrypt = false) :
    (broadcastEvent ctx env sf now ft name (Detail.obj d0) opts).error = none ∧
    ((broadcastEvent ctx env sf now ft name (Detail.obj d0) opts).suppressed = false →
      jsFalsy (broadcastEvent ctx env sf now ft name (Detail.obj d0) opts).data.targetId
        = true →
      (broadcastEvent ctx env sf now ft name (Detail.obj d0) opts).dispatched.isSome
        = true) := by
  simp only [broadcastEvent_obj]
  rcases alreadyBroadcast_spec now ft (opts.eventIds.getD []) ctx.cache with ⟨_, heq⟩ | ⟨_, heq⟩
  · have hsup : (alreadyBroadcast now ft (opts.eventIds.getD []) ctx.cache).suppressed = true := by
      rw [heq]
    rw [broadcastCore_suppressed hsup]
    exact ⟨rfl, fun hf => absurd hf (by simp)⟩
  · have hsup : (alreadyBroadcast now ft (opts.eventIds.getD []) ctx.cache).suppressed = false := by
      rw [heq]
    rw [broadcastCore_fresh_plain henc hsup]
    refine ⟨rfl, fun _ hfal => ?_⟩
    simp only at hfal ⊢
    rw [hfal]
    simp

/-- The amended C3 theorem evaluated on a concrete colon-free name. -/
theorem c3_no_name_validation_witness :
    (broadcastEvent ⟨"cid2", []⟩ ⟨true, [false]⟩ (fun _ => []) 0 9 "plainname"
        (Detail.obj {}) {}).error = none := by
  exact (c3_no_name_validation ⟨"cid2", []⟩ ⟨true, [false]⟩ (fun _ => []) 0 9
    "plainname" {} {} rfl).1

theorem broadcastCore_fresh_enc_fail {ctx : Ctx} {env : Env} {sf : EventData → List Nat}
    {now : Int} {ft : Nat} {name : String} {d0 : EventData} {options : BOptions}
    (henc : options.encrypt = true)
    (h : (alreadyBroadcast now ft (options.eventIds.getD []) ctx.cache).suppressed = false)
    (hc : encrypt (sf (stampTarget options.target (stampOrigin ctx d0)))
      (strCodes ((stampTarget options.target (stampOrigin ctx d0)).originId.getD ""))
        = none) :
    broadcastCore ctx env sf now ft name d0 options =
      (let d2 := stampTarget options.target (stampOrigin ctx d0)
       { error := some "encrypt threw",
         dispatched :=
           if jsFalsy d2.targetId || (d2.targetId == some ctx.originId) then
             some (name, d2)
           else none,
         data := d2,
         eventIds := (alreadyBroadcast now ft (options.eventIds.getD []) ctx.cache).eventIds,
         suppressed := false,
         cache := (alreadyBroadcast now ft (options.eventIds.getD []) ctx.cache).cache,
         sent := [] }) := by
  simp only [broadcastCore, h, Bool.false_eq_true, if_false, henc, if_true, hc, Option.map_none']

theorem broadcastCore_fresh_enc_ok {ctx : Ctx} {env : Env} {sf : EventData → List Nat}
    {now : Int} {ft : Nat} {name : String} {d0 : EventData} {options : BOptions}
    {c : List Nat} (henc : options.encrypt = true)
    (h : (alreadyBroadcast now ft (options.eventIds.getD []) ctx.cache).suppressed = false)
    (hc : encrypt (sf (stampTarget options.target (stampOrigin ctx d0)))
      (strCodes ((stampTarget options.target (stampOrigin ctx d0)).originId.getD ""))
        = some c) :
    broadcastCore ctx env sf now ft name d0 options =
      (let d2 := stampTarget options.target (stampOrigin ctx d0)
       let ab := alreadyBroadcast now ft (options.eventIds.getD []) ctx.cache
       let msg : Message :=
         { type := name,
           detail := Detail.str
             (strCodes "BE:" ++ c ++ [58] ++ strCodes (d2.originId.getD "")),
           eventIds := ab.eventIds, debug := options.debug }
       { error := none,
         dispatched :=
           if jsFalsy d2.targetId || (d2.targetId == some ctx.originId) then
             some (name, d2)
           else none,
         data := d2, eventIds := ab.eventIds, suppressed := false, cache := ab.cache,
         sent := (if env.parentIsSelf then [] else [(SendTarget.parent, msg)]) ++
           env.children.enum.flatMap
             (fun p => if p.2 then [] else [(SendTarget.child p.1, msg)]) }) := by
  simp only [broadcastCore, h, Bool.false_eq_true, if_false, henc, if_true, hc,
    Option.map_some', sendEvent]
  by_cases hp : env.parentIsSelf <;> simp [hp]

theorem broadcastCore_sent_plain {ctx : Ctx} {env : Env} {sf : EventData → List Nat}
    {now : Int} {ft : Nat} {name : String} {d0 : EventData} {options : BOptions}
    (henc : options.encrypt = false) {q : SendTarget × Message}
    (hq : q ∈ (broadcastCore ctx env sf now ft name d0 options).sent) :
    q.2 = { type := name,
            detail := Detail.obj (stampTarget options.target (stampOrigin ctx d0)),
            eventIds := (alreadyBroadcast now ft (options.eventIds.getD []) ctx.cache).eventIds,
            debug := options.debug } := by
  rcases alreadyBroadcast_spec now ft (options.eventIds.getD []) ctx.cache with ⟨_, heq⟩ | ⟨_, heq⟩
  · rw [broadcastCore_suppressed (by rw [heq])] at hq
    exact absurd hq (by simp)
  · rw [broadcastCore_fresh_plain henc (by rw [heq])] at hq
    simp only at hq
    rcases List.mem_append.mp hq with h1 | h2
    · by_cases hp : env.parentIsSelf
      · rw [if_pos hp] at h1
        exact absurd h1 (by simp)
      · rw [if_neg hp] at h1
        have := List.mem_singleton.mp h1
        rw [this]
    · obtain ⟨p, _, hq2⟩ := List.mem_flatMap.mp h2
      by_cases hb : p.2
      · rw [if_pos hb] at hq2
        exact absurd hq2 (by simp)
      · rw [if_neg hb] at hq2
        have := List.mem_singleton.mp hq2
        rw [this]

theorem broadcastCore_sent_fields {ctx : Ctx} {env : Env} {sf : EventData → List Nat}
    {now : Int} {ft : Nat} {name : String} {d0 : EventData} {options : BOptions}
    {q : SendTarget × Message}
    (hq : q ∈ (broadcastCore ctx env sf now ft name d0 options).sent) :
    q.2.eventIds = (broadcastCore ctx env sf now ft name d0 options).eventIds ∧
    q.2.type = name ∧ q.2.debug = options.debug := by
  rcases alreadyBroadcast_spec now ft (options.eventIds.getD []) ctx.cache with ⟨_, heq⟩ | ⟨_, heq⟩
  · rw [broadcastCore_suppressed (by rw [heq])] at hq
    exact absurd hq (by simp)
  · have hsup : (alreadyBroadcast now ft (options.eventIds.getD []) ctx.cache).suppressed
        = false := by rw [heq]
    by_cases henc : options.encrypt
    · rcases hc : encrypt (sf (stampTarget options.target (stampOrigin ctx d0)))
          (strCodes ((stampTarget options.target (stampOrigin ctx d0)).originId.getD ""))
        with _ | c
      · rw [broadcastCore_fresh_enc_fail henc hsup hc] at hq
        exact absurd hq (by simp)
      · rw [broadcastCore_fresh_enc_ok henc hsup hc] at hq
        rw [broadcastCore_fresh_enc_ok henc hsup hc]
        simp only at hq ⊢
        rcases List.mem_append.mp hq with h1 | h2
        · by_cases hp : env.parentIsSelf
          · rw [if_pos hp] at h1
            exact absurd h1 (by simp)
          · rw [if_neg hp] at h1
            rw [List.mem_singleton.mp h1]
            exact ⟨rfl, rfl, rfl⟩
        · obtain ⟨p, _, hq2⟩ := List.mem_flatMap.mp h2
          by_cases hb : p.2
          · rw [if_pos hb] at hq2
            exact absurd hq2 (by simp)
          · rw [if_neg hb] at hq2
            rw [List.mem_singleton.mp hq2]
            exact ⟨rfl, rfl, rfl⟩
    · have henc' : options.encrypt = false := by simpa using henc
      have hmsg := broadcastCore_sent_plain henc' hq
      obtain ⟨_, hids, -⟩ := broadcastCore_fresh_common
        env sf name d0 hsup
      rw [hmsg, hids]
      exact ⟨rfl, rfl, rfl⟩

theorem broadcastCore_sent_struct {ctx : Ctx} {env : Env} {sf : EventData → List Nat}
    {now : Int} {ft : Nat} {name : String} {d0 : EventData} {options : BOptions}
    (hns : (broadcastCore ctx env sf now ft name d0 options).suppressed = false)
    (herr : (broadcastCore ctx env sf now ft name d0 options).error = none) :
    ∃ m : Message,
      m.eventIds = (broadcastCore ctx env sf now ft name d0 options).eventIds ∧
      (broadcastCore ctx env sf now ft name d0 options).sent =
        (if env.parentIsSelf then [] else [(SendTarget.parent, m)]) ++
          env.children.enum.flatMap
            (fun p => if p.2 then [] else [(SendTarget.child p.1, m)]) := by
  rcases alreadyBroadcast_spec now ft (options.eventIds.getD []) ctx.cache with ⟨_, heq⟩ | ⟨_, heq⟩
  · rw [broadcastCore_suppressed (by rw [heq])] at hns
    exact absurd hns (by simp)
  · have hsup : (alreadyBroadcast now ft (options.eventIds.getD []) ctx.cache).suppressed
        = false := by rw [heq]
    by_cases henc : options.encrypt
    · rcases hc : encrypt (sf (stampTarget options.target (stampOrigin ctx d0)))
          (strCodes ((stampTarget options.target (stampOrigin ctx d0)).originId.getD ""))
        with _ | c
      · rw [broadcastCore_fresh_enc_fail henc hsup hc] at herr
        exact absurd herr (by simp)
      · rw [broadcastCore_fresh_enc_ok henc hsup hc]
        exact ⟨_, rfl, rfl⟩
    · have henc' : options.encrypt = false := by simpa using henc
      rw [broadcastCore_fresh_plain henc' hsup]
      exact ⟨_, rfl, rfl⟩

/-! ## Claim C5 -/

/-- C5 as frozen is refuted at a concrete input: a non-suppressed
broadcast with `encrypt` requested and a payload whose serialization
contains the code unit 8364 (the euro sign, as `JSON.stringify` emits
for a non-Latin-1 payload field) makes `btoa` throw after the local
dispatch, so nothing at all is relayed even though the context has a
parent window. -/
theorem c5_relay_counterexample :
    (broadcastEvent ⟨"k", []⟩ ⟨false, []⟩ (fun _ => [8364]) 0 3 "a:b" (Detail.obj {})
      { encrypt := true }).suppressed = false ∧
    (⟨false, []⟩ : Env).parentIsSelf = false ∧
    (broadcastEvent ⟨"k", []⟩ ⟨false, []⟩ (fun _ => [8364]) 0 3 "a:b" (Detail.obj {})
      { encrypt := true }).error ≠ none ∧
    (broadcastEvent ⟨"k", []⟩ ⟨false, []⟩ (fun _ => [8364]) 0 3 "a:b" (Detail.obj {})
      { encrypt := true }).sent = [] := by
  refine ⟨by decide, by decide, by decide, by decide⟩

/-- C5 (amended): for every non-suppressed broadcast that does not throw
during the optional encryption step, one identical envelope is posted to
the parent window (when it is distinct from this window) and to every
child frame that is not this window, in that order, regardless of the
envelope's target; `sendEvent` to the window itself is always a no-op. -/
theorem c5_relay_fanout :
    (∀ (t : SendTarget) (m : Message), sendEvent true t m = []) ∧
    (∀ (ctx : Ctx) (env : Env) (sf : EventData → List Nat) (now : Int) (ft : Nat)
        (name : String) (d0 : EventData) (opts : BOptions),
      (broadcastEvent ctx env sf now ft name (Detail.obj d0) opts).suppressed = false →
      (broadcastEvent ctx env sf now ft name (Detail.obj d0) opts).error = none →
      ∃ m : Message,
        m.eventIds = (broadcastEvent ctx env sf now ft name (Detail.obj d0) opts).eventIds ∧
        (broadcastEvent ctx env sf now ft name (Detail.obj d0) opts).sent =
          (if env.parentIsSelf then [] else [(SendTarget.parent, m)]) ++
            env.children.enum.flatMap
              (fun p => if p.2 then [] else [(SendTarget.child p.1, m)]) ∧
        (env.parentIsSelf = false →
          (SendTarget.parent, m) ∈
            (broadcastEvent ctx env sf now ft name (Detail.obj d0) opts).sent)) := by
  refine ⟨fun t m => rfl, ?_⟩
  intro ctx env sf now ft name d0 opts hns herr
  simp only [broadcastEvent_obj] at hns herr ⊢
  obtain ⟨m, hmids, hsent⟩ := broadcastCore_sent_struct hns herr
  refine ⟨m, hmids, hsent, fun hp => ?_⟩
  rw [hsent, List.mem_append]
  exact Or.inl (by rw [if_neg (by simp [hp])]; simp)

/-- The amended C5 theorem evaluated on a context with a parent and two
child frames. -/
theorem c5_relay_fanout_witness :
    (broadcastEvent ⟨"w5", []⟩ ⟨false, [false, false]⟩ (fun _ => []) 0 4 "a:b"
      (Detail.obj {}) {}).suppressed = false ∧
    (broadcastEvent ⟨"w5", []⟩ ⟨false, [false, false]⟩ (fun _ => []) 0 4 "a:b"
      (Detail.obj {}) {}).error = none ∧
    ∃ m : Message,
      m.eventIds = (broadcastEvent ⟨"w5", []⟩ ⟨false, [false, false]⟩ (fun _ => []) 0 4
        "a:b" (Detail.obj {}) {}).eventIds ∧
      (broadcastEvent ⟨"w5", []⟩ ⟨false, [false, false]⟩ (fun _ => []) 0 4 "a:b"
          (Detail.obj {}) {}).sent =
        (if (false : Bool) then [] else [(SendTarget.parent, m)]) ++
          ([false, false] : List Bool).enum.flatMap
            (fun p => if p.2 then [] else [(SendTarget.child p.1, m)]) := by
  refine ⟨by decide, by decide, ?_⟩
  obtain ⟨m, h1, h2, -⟩ := c5_relay_fanout.2 ⟨"w5", []⟩ ⟨false, [false, false]⟩
    (fun _ => []) 0 4 "a:b" {} {} (by decide) (by decide)
  exact ⟨m, h1, h2⟩

/-! ## Claim C8 -/

/-- C8: when `options.encrypt` is set and the cipher succeeds, the local
firing (which happens before encryption) carries the plaintext event-data
object, and every relayed copy instead carries the string
`BE:` + ciphertext + `:` + key, where the key is the envelope's origin
id, so every relayed detail is a string beginning with `BE:`. -/
theorem c8_encrypt_before_relay (ctx : Ctx) (env : Env) (sf : EventData → List Nat)
    (now : Int) (ft : Nat) (name : String) (d0 : EventData) (opts : BOptions)
    (henc : opts.encrypt = true)
    (hns : (broadcastEvent ctx env sf now ft name (Detail.obj d0) opts).suppressed = false)
    (herr : (broadcastEvent ctx env sf now ft name (Detail.obj d0) opts).error = none) :
    (∀ p, (broadcastEvent ctx env sf now ft name (Detail.obj d0) opts).dispatched = some p →
      p = (name, (broadcastEvent ctx env sf now ft name (Detail.obj d0) opts).data)) ∧
    ∃ c, encrypt (sf (broadcastEvent ctx env sf now ft name (Detail.obj d0) opts).data)
        (strCodes ((broadcastEvent ctx env sf now ft name
          (Detail.obj d0) opts).data.originId.getD "")) = some c ∧
      ∀ q ∈ (broadcastEvent ctx env sf now ft name (Detail.obj d0) opts).sent,
        q.2.detail = Detail.str (strCodes "BE:" ++ c ++ [58] ++
          strCodes ((broadcastEvent ctx env sf now ft name
            (Detail.obj d0) opts).data.originId.getD "")) ∧
        ∃ s, q.2.detail = Detail.str s ∧ (strCodes "BE:").isPrefixOf s = true := by
  simp only [broadcastEvent_obj] at hns herr ⊢
  rcases alreadyBroadcast_spec now ft (opts.eventIds.getD []) ctx.cache with ⟨_, heq⟩ | ⟨_, heq⟩
  · rw [broadcastCore_suppressed (by rw [heq])] at hns
    exact absurd hns (by simp)
  · have hsup : (alreadyBroadcast now ft (opts.eventIds.getD []) ctx.cache).suppressed
        = false := by rw [heq]
    rcases hc : encrypt (sf (stampTarget opts.target (stampOrigin ctx d0)))
        (strCodes ((stampTarget opts.target (stampOrigin ctx d0)).originId.getD ""))
      with _ | c
    · rw [broadcastCore_fresh_enc_fail henc hsup hc] at herr
      exact absurd herr (by simp)
    · rw [broadcastCore_fresh_enc_ok henc hsup hc]
      simp only
      constructor
      · intro p hp
        split at hp
        · exact (Option.some.injEq _ _ ▸ hp.symm) ▸ rfl
        · exact absurd hp (by simp)
      · refine ⟨c, hc, ?_⟩
        intro q hq
        have hq2 : q.2.detail = Detail.str (strCodes "BE:" ++ c ++ [58] ++
            strCodes ((stampTarget opts.target (stampOrigin ctx d0)).originId.getD "")) := by
          rcases List.mem_append.mp hq with h1 | h2
          · by_cases hp : env.parentIsSelf
            · rw [if_pos hp] at h1
              exact absurd h1 (by simp)
            · rw [if_neg hp] at h1
              rw [List.mem_singleton.mp h1]
          · obtain ⟨p, _, hq2⟩ := List.mem_flatMap.mp h2
            by_cases hb : p.2
            · rw [if_pos hb] at hq2
              exact absurd hq2 (by simp)
            · rw [if_neg hb] at hq2
              rw [List.mem_singleton.mp hq2]
        refine ⟨hq2, _, hq2, ?_⟩
        rw [List.isPrefixOf_iff_prefix, List.append_assoc, List.append_assoc]
        exact List.prefix_append _ _

/-- The C8 theorem evaluated on a concrete encrypted broadcast whose
serialized payload is Latin-1. -/
theorem c8_encrypt_before_relay_witness :
    (broadcastEvent ⟨"kk", []⟩ ⟨false, []⟩ (fun _ => [104, 105]) 0 4 "a:b"
      (Detail.obj {}) { encrypt := true }).suppressed = false ∧
    (broadcastEvent ⟨"kk", []⟩ ⟨false, []⟩ (fun _ => [104, 105]) 0 4 "a:b"
      (Detail.obj {}) { encrypt := true }).error = none ∧
    ∀ p, (broadcastEvent ⟨"kk", []⟩ ⟨false, []⟩ (fun _ => [104, 105]) 0 4 "a:b"
        (Detail.obj {}) { encrypt := true }).dispatched = some p →
      p = ("a:b", (broadcastEvent ⟨"kk", []⟩ ⟨false, []⟩ (fun _ => [104, 105]) 0 4 "a:b"
        (Detail.obj {}) { encrypt := true }).data) := by
  refine ⟨by decide, by decide, ?_⟩
  exact (c8_encrypt_before_relay ⟨"kk", []⟩ ⟨false, []⟩ (fun _ => [104, 105]) 0 4 "a:b"
    {} { encrypt := true } rfl (by decide) (by decide)).1

/-! ## Claim C10 -/

/-- C10: `broadcastEvent` mutates the caller's `eventData` object in
place: after the call it carries `_originId` (stamped when absent) and
possibly `_targetId` taken from `options.target`, the caller's other
fields surviving; and when not suppressed, the `eventIds` array carried
in from `options._eventIds` has had the fresh token pushed onto it, and
the relayed envelopes carry exactly that array. -/
theorem c10_caller_object_mutated (ctx : Ctx) (env : Env) (sf : EventData → List Nat)
    (now : Int) (ft : Nat) (name : String) (d0 : EventData) (opts : BOptions) :
    (broadcastEvent ctx env sf now ft name (Detail.obj d0) opts).data.originId =
      (if jsFalsy d0.originId then some ctx.originId else d0.originId) ∧
    (broadcastEvent ctx env sf now ft name (Detail.obj d0) opts).data.targetId =
      (if jsFalsy d0.targetId then opts.target else d0.targetId) ∧
    (broadcastEvent ctx env sf now ft name (Detail.obj d0) opts).data.fields = d0.fields ∧
    ((broadcastEvent ctx env sf now ft name (Detail.obj d0) opts).suppressed = false →
      (broadcastEvent ctx env sf now ft name (Detail.obj d0) opts).eventIds =
        opts.eventIds.getD [] ++ [ft] ∧
      ∀ q ∈ (broadcastEvent ctx env sf now ft name (Detail.obj d0) opts).sent,
        q.2.eventIds =
          (broadcastEvent ctx env sf now ft name (Detail.obj d0) opts).eventIds) := by
  simp only [broadcastEvent_obj]
  have hdata : (broadcastCore ctx env sf now ft name d0 opts).data =
      stampTarget opts.target (stampOrigin ctx d0) := by
    rcases alreadyBroadcast_spec now ft (opts.eventIds.getD []) ctx.cache with ⟨_, heq⟩ | ⟨_, heq⟩
    · rw [broadcastCore_suppressed (by rw [heq])]
    · exact (broadcastCore_fresh_common env sf name d0 (by rw [heq])).2.2.2.1
  refine ⟨by rw [hdata]; simp, by rw [hdata]; simp, by rw [hdata]; simp, fun hns => ?_⟩
  have hids := (c2_dedup_check.2 ctx env sf now ft name d0 opts).2
  simp only [broadcastEvent_obj] at hids
  refine ⟨(hids hns).1, fun q hq => (broadcastCore_sent_fields hq).1⟩

/-- The C10 theorem evaluated on a caller object with a user field and a
carried-in `eventIds` array. -/
theorem c10_caller_object_mutated_witness :
    (broadcastEvent ⟨"w10", []⟩ ⟨false, []⟩ (fun _ => []) 0 11 "a:b"
      (Detail.obj { fields := [("k", "v")] }) { eventIds := some [3] }).data.originId =
      some "w10" ∧
    (broadcastEvent ⟨"w10", []⟩ ⟨false, []⟩ (fun _ => []) 0 11 "a:b"
      (Detail.obj { fields := [("k", "v")] }) { eventIds := some [3] }).data.fields =
      [("k", "v")] ∧
    (broadcastEvent ⟨"w10", []⟩ ⟨false, []⟩ (fun _ => []) 0 11 "a:b"
      (Detail.obj { fields := [("k", "v")] }) { eventIds := some [3] }).eventIds =
      [3, 11] := by
  have h := c10_caller_object_mutated ⟨"w10", []⟩ ⟨false, []⟩ (fun _ => []) 0 11 "a:b"
    { fields := [("k", "v")] } { eventIds := some [3] }
  exact ⟨h.1, h.2.2.1, by simpa using (h.2.2.2 (by decide)).1⟩

/-! ## Relay-hop lemmas (claims C4 and C6) -/

theorem handleMessage_obj {ctx : Ctx} {env : Env} {sf : EventData → List Nat}
    {jp : List Nat → Option EventData} {now : Int} {ft : Nat} {m : Message}
    {d : EventData} (hm : m.detail = Detail.obj d) :
    handleMessage ctx env sf jp now ft false (some m) =
      some (broadcastCore ctx env sf now ft m.type d
        { encrypt := false, target := none, debug := m.debug,
          eventIds := some m.eventIds }) := by
  simp [handleMessage, hm, Detail.truthy, broadcastEvent_obj]

theorem hopSends_obj (h : Hop) {m : Message} {d : EventData}
    (hm : m.detail = Detail.obj d) :
    hopSends h m =
      (broadcastCore h.ctx h.env h.stringify h.now h.freshTok m.type d
        { encrypt := false, target := none, debug := m.debug,
          eventIds := some m.eventIds }).sent.map (fun p => p.2) := by
  unfold hopSends
  rw [handleMessage_obj hm]

theorem hopSends_obj_originId {x : String} (hx : x ≠ "") (h : Hop) {m m' : Message}
    {d : EventData} (hm : m.detail = Detail.obj d) (hd : d.originId = some x)
    (hm' : m' ∈ hopSends h m) :
    ∃ d', m'.detail = Detail.obj d' ∧ d'.originId = some x := by
  rw [hopSends_obj h hm] at hm'
  obtain ⟨q, hq, rfl⟩ := List.mem_map.mp hm'
  rw [broadcastCore_sent_plain rfl hq]
  refine ⟨_, rfl, ?_⟩
  rw [stampTarget_originId, stampOrigin_originId, hd, jsFalsy_some_of_ne hx]
  simp [hd]

theorem relayChain_originId {x : String} (hx : x ≠ "") {m0 m : Message}
    (h0 : ∃ d, m0.detail = Detail.obj d ∧ d.originId = some x)
    (hch : Relation.ReflTransGen RelayStep m0 m) :
    ∃ d, m.detail = Detail.obj d ∧ d.originId = some x := by
  induction hch with
  | refl => exact h0
  | tail _hpre hstep ih =>
      obtain ⟨d, hm, hd⟩ := ih
      obtain ⟨h, hm'⟩ := hstep
      exact hopSends_obj_originId hx h hm hd hm'

theorem hopSends_obj_targetId {t : String} (ht : t ≠ "") (h : Hop) {m m' : Message}
    {d : EventData} (hm : m.detail = Detail.obj d) (hd : d.targetId = some t)
    (hm' : m' ∈ hopSends h m) :
    ∃ d', m'.detail = Detail.obj d' ∧ d'.targetId = some t := by
  rw [hopSends_obj h hm] at hm'
  obtain ⟨q, hq, rfl⟩ := List.mem_map.mp hm'
  rw [broadcastCore_sent_plain rfl hq]
  refine ⟨_, rfl, ?_⟩
  rw [stampTarget_targetId, stampOrigin_targetId, hd, jsFalsy_some_of_ne ht]
  simp [hd]

theorem relayChainAvoiding_targetId {t : String} (ht : t ≠ "") {m0 m : Message}
    (h0 : ∃ d, m0.detail = Detail.obj d ∧ d.targetId = some t)
    (hch : Relation.ReflTransGen (RelayStepAvoiding t) m0 m) :
    ∃ d, m.detail = Detail.obj d ∧ d.targetId = some t := by
  induction hch with
  | refl => exact h0
  | tail _hpre hstep ih =>
      obtain ⟨d, hm, hd⟩ := ih
      obtain ⟨h, _, hm'⟩ := hstep
      exact hopSends_obj_targetId ht h hm hd hm'

theorem broadcastCore_dispatched_none {ctx : Ctx} {env : Env} {sf : EventData → List Nat}
    {now : Int} {ft : Nat} {name : String} {d0 : EventData} {options : BOptions}
    (hcond : (jsFalsy (stampTarget options.target (stampOrigin ctx d0)).targetId ||
      ((stampTarget options.target (stampOrigin ctx d0)).targetId == some ctx.originId))
        = false) :
    (broadcastCore ctx env sf now ft name d0 options).dispatched = none := by
  rcases alreadyBroadcast_spec now ft (options.eventIds.getD []) ctx.cache with ⟨_, heq⟩ | ⟨_, heq⟩
  · rw [broadcastCore_suppressed (by rw [heq])]
  · have hdisp := (broadcastCore_fresh_common env sf name d0 (by rw [heq])).2.2.2.2
    rw [hdisp, hcond]
    simp

theorem handleMessage_no_fire {t : String} (ht : t ≠ "") {ctx : Ctx} {env : Env}
    {sf : EventData → List Nat} {jp : List Nat → Option EventData} {now : Int} {ft : Nat}
    (hne : ctx.originId ≠ t) {m : Message} {d : EventData}
    (hm : m.detail = Detail.obj d) (hd : d.targetId = some t) :
    ∀ r, handleMessage ctx env sf jp now ft false (some m) = some r →
      r.dispatched = none := by
  intro r hr
  rw [handleMessage_obj hm] at hr
  have hr' : r = broadcastCore ctx env sf now ft m.type d
      { encrypt := false, target := none, debug := m.debug,
        eventIds := some m.eventIds } := (Option.some.inj hr).symm
  rw [hr']
  apply broadcastCore_dispatched_none
  rw [stampTarget_targetId, stampOrigin_targetId, hd]
  simp [jsFalsy_some_of_ne ht, Ne.symm hne]

/-! ## Claim C4 -/

/-- C4: in every non-suppressed `broadcastEvent` call, the local
`dispatchEvent` fires exactly when the stamped `_targetId` is falsy or
equals this context's own origin identity; moreover a plaintext broadcast
targeted at an identity `t` owned by no context fires nowhere: not at
the originating context, and not at any relay hop whose context identity
differs from `t`, however the envelope travels. -/
theorem c4_targeting_gates_local_firing :
    (∀ (ctx : Ctx) (env : Env) (sf : EventData → List Nat) (now : Int) (ft : Nat)
        (name : String) (d0 : EventData) (opts : BOptions),
      (broadcastEvent ctx env sf now ft name (Detail.obj d0) opts).suppressed = false →
      (broadcastEvent ctx env sf now ft name (Detail.obj d0) opts).dispatched.isSome =
        (jsFalsy (broadcastEvent ctx env sf now ft name
            (Detail.obj d0) opts).data.targetId ||
          ((broadcastEvent ctx env sf now ft name (Detail.obj d0) opts).data.targetId ==
            some ctx.originId))) ∧
    (∀ (t : String), t ≠ "" →
      ∀ (ctx : Ctx) (env : Env) (sf : EventData → List Nat) (now : Int) (ft : Nat)
        (name : String) (d0 : EventData) (opts : BOptions),
      opts.encrypt = false → opts.target = some t → jsFalsy d0.targetId = true →
      ctx.originId ≠ t →
      (broadcastEvent ctx env sf now ft name (Detail.obj d0) opts).dispatched = none ∧
      ∀ m0 ∈ (broadcastEvent ctx env sf now ft name (Detail.obj d0) opts).sent.map
          (fun q => q.2),
        ∀ m, Relation.ReflTransGen (RelayStepAvoiding t) m0 m →
          ∀ (h : Hop), h.ctx.originId ≠ t →
            ∀ r, handleMessage h.ctx h.env h.stringify h.jsonParse h.now h.freshTok
                false (some m) = some r →
              r.dispatched = none) := by
  constructor
  · intro ctx env sf now ft name d0 opts hns
    simp only [broadcastEvent_obj] at hns ⊢
    rcases alreadyBroadcast_spec now ft (opts.eventIds.getD []) ctx.cache
      with ⟨_, heq⟩ | ⟨_, heq⟩
    · rw [broadcastCore_suppressed (by rw [heq])] at hns
      exact absurd hns (by simp)
    · obtain ⟨_, _, _, hdata, hdisp⟩ := broadcastCore_fresh_common
        env sf name d0 (by rw [heq])
      rw [hdisp, hdata]
      by_cases hcond : (jsFalsy (stampTarget opts.target (stampOrigin ctx d0)).targetId ||
          ((stampTarget opts.target (stampOrigin ctx d0)).targetId == some ctx.originId))
          = true
      · rw [hcond, if_pos rfl]
        rfl
      · have hcond' : (jsFalsy (stampTarget opts.target (stampOrigin ctx d0)).targetId ||
            ((stampTarget opts.target (stampOrigin ctx d0)).targetId ==
              some ctx.originId)) = false := by
          simpa using hcond
        rw [hcond']
        simp
  · intro t ht ctx env sf now ft name d0 opts henc htarget hfal hne
    have hstamped : (stampTarget opts.target (stampOrigin ctx d0)).targetId = some t := by
      rw [stampTarget_targetId, stampOrigin_targetId, hfal, if_pos rfl, htarget]
    constructor
    · simp only [broadcastEvent_obj]
      apply broadcastCore_dispatched_none
      rw [hstamped]
      simp [jsFalsy_some_of_ne ht, Ne.symm hne]
    · intro m0 hm0 m hch h hh r hr
      simp only [broadcastEvent_obj] at hm0
      obtain ⟨q, hq, rfl⟩ := List.mem_map.mp hm0
      have hq2 := broadcastCore_sent_plain henc hq
      have h0 : ∃ d, q.2.detail = Detail.obj d ∧ d.targetId = some t := by
        rw [hq2]
        exact ⟨_, rfl, hstamped⟩
      obtain ⟨d, hm, hd⟩ := relayChainAvoiding_targetId ht h0 hch
      exact handleMessage_no_fire ht hh hm hd r hr

/-- The C4 theorem evaluated on a concrete targeted broadcast whose
target `zzz` matches no context: the origin (identity `aaa`) does not
fire, and a receiving hop (identity `bbb`) does not fire either. -/
theorem c4_targeting_gates_local_firing_witness :
    (broadcastEvent ⟨"aaa", []⟩ ⟨false, []⟩ (fun _ => []) 0 2 "a:b" (Detail.obj {})
      { target := some "zzz" }).dispatched = none ∧
    (broadcastEvent ⟨"aaa", []⟩ ⟨false, []⟩ (fun _ => []) 0 2 "a:b" (Detail.obj {})
      { target := some "zzz" }).sent.map (fun q => q.2) = [msgTargeted] ∧
    handleMessage ⟨"bbb", []⟩ ⟨true, []⟩ (fun _ => []) (fun _ => none) 0 5 false
      (some msgTargeted) ≠ none ∧
    ((handleMessage ⟨"bbb", []⟩ ⟨true, []⟩ (fun _ => []) (fun _ => none) 0 5 false
      (some msgTargeted)).getD {}).dispatched = none := by
  have happ := c4_targeting_gates_local_firing.2 "zzz" (by decide) ⟨"aaa", []⟩ ⟨false, []⟩
    (fun _ => []) 0 2 "a:b" {} { target := some "zzz" } rfl rfl (by decide) (by decide)
  refine ⟨happ.1, by decide, by decide, ?_⟩
  have hmem : msgTargeted ∈
      (broadcastEvent ⟨"aaa", []⟩ ⟨false, []⟩ (fun _ => []) 0 2 "a:b" (Detail.obj {})
        { target := some "zzz" }).sent.map (fun q => q.2) := by decide
  have hfire := happ.2 _ hmem _ Relation.ReflTransGen.refl
    ⟨⟨"bbb", []⟩, ⟨true, []⟩, fun _ => [], fun _ => none, 0, 5⟩ (by decide)
  cases heval : handleMessage ⟨"bbb", []⟩ ⟨true, []⟩ (fun _ => []) (fun _ => none) 0 5 false
      (some msgTargeted) with
  | none => exact absurd heval (by decide)
  | some r => simpa using hfire r heval

/-! ## Claim C6 -/

/-- C6: the envelope's `_originId` is stamped with the local context's
origin identity only when not already present, and is preserved
unchanged by every relay hop: along any chain of relays of a plaintext
broadcast, every message's detail still carries the originating
context's identity. -/
theorem c6_origin_identity_preserved (ctx : Ctx) (env : Env)
    (sf : EventData → List Nat) (now : Int) (ft : Nat) (name : String)
    (d0 : EventData) (opts : BOptions) (henc : opts.encrypt = false)
    (hctx : ctx.originId ≠ "") {x : String}
    (hx : (if jsFalsy d0.originId then some ctx.originId else d0.originId) = some x) :
    (broadcastEvent ctx env sf now ft name (Detail.obj d0) opts).data.originId = some x ∧
    ∀ m0 ∈ (broadcastEvent ctx env sf now ft name (Detail.obj d0) opts).sent.map
        (fun q => q.2),
      ∀ m, Relation.ReflTransGen RelayStep m0 m →
        ∃ d, m.detail = Detail.obj d ∧ d.originId = some x := by
  have hxne : x ≠ "" := by
    by_cases hjf : jsFalsy d0.originId = true
    · rw [hjf, if_pos rfl] at hx
      rw [← Option.some.inj hx]
      exact hctx
    · have hjf' : jsFalsy d0.originId = false := by simpa using hjf
      rw [hjf', if_neg (by simp)] at hx
      rw [hx] at hjf'
      intro hxe
      rw [hxe] at hjf'
      exact absurd hjf' (by decide)
  have hdata : (broadcastCore ctx env sf now ft name d0 opts).data =
      stampTarget opts.target (stampOrigin ctx d0) := by
    rcases alreadyBroadcast_spec now ft (opts.eventIds.getD []) ctx.cache
      with ⟨_, heq⟩ | ⟨_, heq⟩
    · rw [broadcastCore_suppressed (by rw [heq])]
    · exact (broadcastCore_fresh_common env sf name d0 (by rw [heq])).2.2.2.1
  have hstamped : (stampTarget opts.target (stampOrigin ctx d0)).originId = some x := by
    rw [stampTarget_originId, stampOrigin_originId, hx]
  constructor
  · simp only [broadcastEvent_obj]
    rw [hdata, hstamped]
  · intro m0 hm0 m hch
    simp only [broadcastEvent_obj] at hm0
    obtain ⟨q, hq, rfl⟩ := List.mem_map.mp hm0
    have hq2 := broadcastCore_sent_plain henc hq
    have h0 : ∃ d, q.2.detail = Detail.obj d ∧ d.originId = some x := by
      rw [hq2]
      exact ⟨_, rfl, hstamped⟩
    exact relayChain_originId hxne h0 hch

/-- The C6 theorem evaluated on a concrete unstamped broadcast from the
context with identity `oid`, reading back the relayed message. -/
theorem c6_origin_identity_preserved_witness :
    (broadcastEvent ⟨"oid", []⟩ ⟨false, []⟩ (fun _ => []) 0 2 "a:b" (Detail.obj {})
      {}).data.originId = some "oid" ∧
    (broadcastEvent ⟨"oid", []⟩ ⟨false, []⟩ (fun _ => []) 0 2 "a:b" (Detail.obj {})
      {}).sent.map (fun q => q.2) = [msgPlainOid] ∧
    ∃ d, msgPlainOid.detail = Detail.obj d ∧ d.originId = some "oid" := by
  have h := c6_origin_identity_preserved ⟨"oid", []⟩ ⟨false, []⟩ (fun _ => []) 0 2 "a:b"
    {} {} rfl (by decide) (x := "oid") (by decide)
  refine ⟨h.1, by decide, ?_⟩
  exact h.2 _ (by decide) _ Relation.ReflTransGen.refl

/-! ## Claim C9 -/

@[simp] theorem broadcastEvent_null (ctx : Ctx) (env : Env) (sf : EventData → List Nat)
    (now : Int) (ft : Nat) (name : String) (opts : BOptions) :
    broadcastEvent ctx env sf now ft name Detail.null opts =
      broadcastCore ctx env sf now ft name {} opts := rfl

theorem broadcastCore_error_none_of_plain {ctx : Ctx} {env : Env}
    {sf : EventData → List Nat} {now : Int} {ft : Nat} {name : String}
    {d0 : EventData} {options : BOptions} (henc : options.encrypt = false) :
    (broadcastCore ctx env sf now ft name d0 options).error = none := by
  rcases alreadyBroadcast_spec now ft (options.eventIds.getD []) ctx.cache
    with ⟨_, heq⟩ | ⟨_, heq⟩
  · rw [broadcastCore_suppressed (by rw [heq])]
  · rw [broadcastCore_fresh_plain henc (by rw [heq])]

/-- C9: when the inbound handler receives an envelope whose detail is
marked encrypted (`BE:` prefix) but whose ciphertext cannot be decrypted
and parsed, the failure is caught, the payload is replaced by `null`,
and the broadcast still proceeds: `broadcastEvent` is re-invoked with the
empty detail, raises no error, and the (empty) event-data object is
stamped as usual. -/
theorem c9_decrypt_failure_recovered (ctx : Ctx) (env : Env)
    (sf : EventData → List Nat) (jp : List Nat → Option EventData) (now : Int)
    (ft : Nat) (m : Message) (s : List Nat) (hdet : m.detail = Detail.str s)
    (hpre : (strCodes "BE:").isPrefixOf s = true)
    (hfail : (decrypt ((s.splitOn 58).getD 1 []) ((s.splitOn 58).getD 2 [])).bind jp
      = none) :
    handleMessage ctx env sf jp now ft false (some m) =
      some (broadcastEvent ctx env sf now ft m.type Detail.null
        { encrypt := false, target := none, debug := m.debug,
          eventIds := some m.eventIds }) ∧
    (broadcastEvent ctx env sf now ft m.type Detail.null
      { encrypt := false, target := none, debug := m.debug,
        eventIds := some m.eventIds }).error = none ∧
    (broadcastEvent ctx env sf now ft m.type Detail.null
      { encrypt := false, target := none, debug := m.debug,
        eventIds := some m.eventIds }).data =
      { originId := some ctx.originId, targetId := none, fields := [] } := by
  have hs : s.isEmpty = false := by
    cases s with
    | nil => exact absurd hpre (by decide)
    | cons a l => rfl
  have hfail2 : (decrypt ((s.splitOn 58)[1]?.getD []) ((s.splitOn 58)[2]?.getD [])).bind jp
      = none := by simpa [List.getD] using hfail
  refine ⟨?_, ?_, ?_⟩
  · simp [handleMessage, hdet, Detail.truthy, hs, hpre, hfail2]
  · rw [broadcastEvent_null]
    exact broadcastCore_error_none_of_plain rfl
  · rw [broadcastEvent_null]
    have hdata : (broadcastCore ctx env sf now ft m.type ({} : EventData)
        { encrypt := false, target := none, debug := m.debug,
          eventIds := some m.eventIds }).data =
        stampTarget none (stampOrigin ctx {}) := by
      rcases alreadyBroadcast_spec now ft (m.eventIds) ctx.cache with ⟨_, heq⟩ | ⟨_, heq⟩
      · rw [broadcastCore_suppressed (by simp [heq])]
      · exact (broadcastCore_fresh_common env sf m.type {} (by simp [heq])).2.2.2.1
    rw [hdata]
    rfl

/-- The C9 theorem evaluated on a concrete malformed ciphertext envelope. -/
theorem c9_decrypt_failure_recovered_witness :
    handleMessage ⟨"oid9", []⟩ ⟨true, []⟩ (fun _ => []) (fun _ => none) 0 3 false
      (some msgBadCipher) =
      some (broadcastEvent ⟨"oid9", []⟩ ⟨true, []⟩ (fun _ => []) 0 3 "a:b" Detail.null
        { encrypt := false, target := none, debug := false, eventIds := some [] }) ∧
    (broadcastEvent ⟨"oid9", []⟩ ⟨true, []⟩ (fun _ => []) 0 3 "a:b" Detail.null
      { encrypt := false, target := none, debug := false,
        eventIds := some [] }).error = none := by
  have h := c9_decrypt_failure_recovered ⟨"oid9", []⟩ ⟨true, []⟩ (fun _ => [])
    (fun _ => none) 0 3 msgBadCipher (strCodes "BE:") rfl (by decide) (by decide)
  exact ⟨h.1, h.2.1⟩

/-! ## Tree and path lemmas (claim C1) -/

theorem pred_ne_of_ne_root {n : Nat} (T : Tree n) {v : Fin n} (h : v ≠ T.o) :
    T.pred v ≠ v := by
  intro hcontra
  have := T.hdepth v h
  rw [hcontra] at this
  omega

theorem pred_eq_self_iff {n : Nat} (T : Tree n) {v : Fin n} :
    T.pred v = v ↔ v = T.o := by
  constructor
  · intro h
    by_contra hne
    exact pred_ne_of_ne_root T hne h
  · intro h
    rw [h, T.predo]

theorem no_two_cycle {n : Nat} (T : Tree n) {u v : Fin n} (hne : u ≠ v)
    (h1 : T.pred u = v) (h2 : T.pred v = u) : False := by
  by_cases hu : u = T.o
  · rw [hu, T.predo] at h1
    exact hne (hu.trans h1)
  · by_cases hv : v = T.o
    · rw [hv, T.predo] at h2
      exact hne (h2.symm.trans hv.symm)
    · have d1 := T.hdepth u hu
      have d2 := T.hdepth v hv
      rw [h1] at d1
      rw [h2] at d2
      omega

theorem mem_childList {n : Nat} (T : Tree n) {v w : Fin n} :
    w ∈ childList T v ↔ (T.pred w = v ∧ w ≠ v) := by
  simp [childList, List.mem_filter, List.mem_finRange]

theorem mem_neighborList {n : Nat} (T : Tree n) {v w : Fin n} :
    w ∈ neighborList T v ↔ Adj T w v := by
  unfold neighborList Adj
  by_cases hv : T.pred v = v
  · rw [if_pos hv]
    simp only [List.nil_append, mem_childList]
    constructor
    · rintro ⟨h1, h2⟩
      exact ⟨h2, Or.inl h1⟩
    · rintro ⟨h2, h1 | h1⟩
      · exact ⟨h1, h2⟩
      · exact absurd (hv.symm.trans h1) (Ne.symm h2)
  · rw [if_neg hv]
    simp only [List.cons_append, List.nil_append, List.mem_cons, mem_childList]
    constructor
    · rintro (rfl | ⟨h1, h2⟩)
      · exact ⟨fun hc => hv (by rw [hc]), Or.inr rfl⟩
      · exact ⟨h2, Or.inl h1⟩
    · rintro ⟨h2, h1 | h1⟩
      · exact Or.inr ⟨h1, h2⟩
      · exact Or.inl h1.symm

theorem neighborList_nodup {n : Nat} (T : Tree n) (v : Fin n) :
    (neighborList T v).Nodup := by
  unfold neighborList
  have hchild : (childList T v).Nodup := (List.nodup_finRange n).filter _
  by_cases hv : T.pred v = v
  · rw [if_pos hv]
    simpa using hchild
  · rw [if_neg hv]
    simp only [List.cons_append, List.nil_append, List.nodup_cons]
    refine ⟨fun hmem => ?_, hchild⟩
    obtain ⟨h1, h2⟩ := (mem_childList T).mp hmem
    exact no_two_cycle T h2 h1 rfl

theorem chainL_root {n : Nat} (T : Tree n) : chainL T T.o = [T.o] := by
  rw [chainL]
  simp

theorem chainL_ne_root {n : Nat} (T : Tree n) {v : Fin n} (h : v ≠ T.o) :
    chainL T v = chainL T (T.pred v) ++ [v] := by
  rw [chainL]
  simp [h]

theorem chainL_concat {n : Nat} (T : Tree n) (v : Fin n) :
    ∃ l, chainL T v = l ++ [v] := by
  by_cases h : v = T.o
  · subst h
    exact ⟨[], by rw [chainL_root]; rfl⟩
  · exact ⟨chainL T (T.pred v), chainL_ne_root T h⟩

theorem mem_chainL_self {n : Nat} (T : Tree n) (v : Fin n) : v ∈ chainL T v := by
  obtain ⟨l, hl⟩ := chainL_concat T v
  rw [hl]
  simp

theorem pred_mem_chainL {n : Nat} (T : Tree n) {v : Fin n} (h : v ≠ T.o) :
    T.pred v ∈ chainL T v := by
  rw [chainL_ne_root T h, List.mem_append]
  exact Or.inl (mem_chainL_self T (T.pred v))

theorem chainL_closed_aux {n : Nat} (T : Tree n) {F : Finset (Fin n)}
    (hc : ∀ v ∈ F, v ≠ T.o → T.pred v ∈ F) :
    ∀ (k : Nat) (u : Fin n), T.depth u ≤ k → u ∈ F → ∀ w ∈ chainL T u, w ∈ F := by
  intro k
  induction k with
  | zero =>
      intro u hd hu w hw
      by_cases huo : u = T.o
      · subst huo
        rw [chainL_root] at hw
        rw [List.mem_singleton.mp hw]
        exact hu
      · have := T.hdepth u huo
        omega
  | succ k ih =>
      intro u hd hu w hw
      by_cases huo : u = T.o
      · subst huo
        rw [chainL_root] at hw
        rw [List.mem_singleton.mp hw]
        exact hu
      · rw [chainL_ne_root T huo, List.mem_append] at hw
        rcases hw with hw | hw
        · have hdp := T.hdepth u huo
          exact ih (T.pred u) (by omega) (hc u hu huo) w hw
        · rw [List.mem_singleton.mp hw]
          exact hu

theorem chainL_closed {n : Nat} (T : Tree n) {F : Finset (Fin n)}
    (hc : ∀ v ∈ F, v ≠ T.o → T.pred v ∈ F) {u : Fin n} (hu : u ∈ F) :
    ∀ w ∈ chainL T u, w ∈ F :=
  chainL_closed_aux T hc (T.depth u) u le_rfl hu

theorem msgIds_getLast {n : Nat} (T : Tree n) (tok : Fin n → Nat) (v : Fin n) :
    (msgIds T tok v).getLast? = some (tok v) := by
  obtain ⟨l, hl⟩ := chainL_concat T v
  rw [msgIds, hl, List.map_append]
  exact List.getLast?_concat _

theorem msgIds_ne_of_tok_ne {n : Nat} {T : Tree n} {tok tok' : Fin n → Nat}
    {u v : Fin n} (h : tok u ≠ tok' v) : msgIds T tok u ≠ msgIds T tok' v := by
  intro hcontra
  have h1 := msgIds_getLast T tok u
  have h2 := msgIds_getLast T tok' v
  rw [hcontra, h2] at h1
  exact h (Option.some.inj h1).symm

theorem msgIds_update_of_not_mem {n : Nat} (T : Tree n) (tok : Fin n → Nat)
    {d u : Fin n} (hd : d ∉ chainL T u) (t : Nat) :
    msgIds T (Function.update tok d t) u = msgIds T tok u := by
  unfold msgIds
  apply List.map_congr_left
  intro w hw
  have : w ≠ d := fun hc => hd (hc ▸ hw)
  exact Function.update_noteq this t tok

theorem mem_msgIds {n : Nat} {T : Tree n} {tok : Fin n → Nat} {u : Fin n}
    {x : Nat} (hx : x ∈ msgIds T tok u) : ∃ w ∈ chainL T u, tok w = x := by
  obtain ⟨w, hw, rfl⟩ := List.mem_map.mp hx
  exact ⟨w, hw, rfl⟩

theorem count_map_pair {n : Nat} (l : List (Fin n)) (x : Fin n) (Y Z : List Nat) :
    (l.map (fun w => (w, Z))).count (x, Y) = if Y = Z then l.count x else 0 := by
  induction l with
  | nil => simp
  | cons a l ih =>
      simp only [List.map_cons, List.count_cons, ih, beq_iff_eq, Prod.mk.injEq]
      by_cases hyz : Y = Z
      · subst hyz
        by_cases hxa : x = a
        · subst hxa
          simp
        · simp [hxa, Ne.symm hxa]
      · simp only [if_neg hyz]
        simp [hyz]
        intro _ h
        exact hyz h.symm

/-! ## Network invariant (claim C1) -/

theorem ab_fresh_nil (nw : Int) (ft : Nat) (ids : List Nat) :
    alreadyBroadcast nw ft ids [] =
      { suppressed := false, eventIds := ids ++ [ft], cache := [(ft, nw)] } := by
  simp [alreadyBroadcast, purgeCache, cacheHas]

theorem deliverAt_suppressed_eq {n : Nat} (T : Tree n) {d : Fin n} {ids : List Nat}
    {s : NetState n}
    (hsup : (alreadyBroadcast 0 s.nextTok ids (s.cache d)).suppressed = true) :
    deliverAt T d ids s =
      { s with inflight := s.inflight.erase (d, ids),
               cache := Function.update s.cache d
                 (alreadyBroadcast 0 s.nextTok ids (s.cache d)).cache } := by
  simp only [deliverAt, hsup, if_true]

theorem deliverAt_fresh_eq {n : Nat} (T : Tree n) {d : Fin n} {ids : List Nat}
    {s : NetState n}
    (hsup : (alreadyBroadcast 0 s.nextTok ids (s.cache d)).suppressed = false) :
    deliverAt T d ids s =
      { cache := Function.update s.cache d
          (alreadyBroadcast 0 s.nextTok ids (s.cache d)).cache,
        inflight := s.inflight.erase (d, ids) ++
          (neighborList T d).map
            (fun w => (w, (alreadyBroadcast 0 s.nextTok ids (s.cache d)).eventIds)),
        fired := Function.update s.fired d (s.fired d + 1),
        nextTok := s.nextTok + 1 } := by
  simp only [deliverAt, hsup, Bool.false_eq_true, if_false]

theorem inv_delivered_cases {n : Nat} {T : Tree n} {s : NetState n}
    {F : Finset (Fin n)} {tok : Fin n → Nat} (hI : InvData T s F tok) {d : Fin n}
    {ids : List Nat} (hm : (d, ids) ∈ s.inflight) :
    (∃ u, u ∈ F ∧ u ≠ T.o ∧ T.pred u = d ∧ ids = msgIds T tok u) ∨
    (d ∉ F ∧ d ≠ T.o ∧ T.pred d ∈ F ∧ ids = msgIds T tok (T.pred d)) := by
  obtain ⟨u, huF, hadj, hids0⟩ := hI.msg_form (d, ids) hm
  have hids : ids = msgIds T tok u := hids0
  obtain ⟨hne0, hdisj0⟩ := hadj
  have hne : u ≠ d := hne0
  have hdisj : T.pred u = d ∨ T.pred d = u := hdisj0
  by_cases hpu : T.pred u = d
  · refine Or.inl ⟨u, huF, ?_, hpu, hids⟩
    intro huo
    rw [huo, T.predo] at hpu
    exact hne (huo.trans hpu)
  · have hpd : T.pred d = u := by
      rcases hdisj with h | h
      · exact absurd h hpu
      · exact h
    have hdo : d ≠ T.o := by
      intro hdo
      rw [hdo, T.predo] at hpd
      exact hne (hpd.symm.trans hdo.symm)
    refine Or.inr ⟨?_, hdo, by rw [hpd]; exact huF, by rw [hpd]; exact hids⟩
    intro hdF
    have h0 := hI.consumed d hdF hdo
    rw [hpd, ← hids] at h0
    have hpos := List.count_pos_iff.mpr hm
    omega

theorem inv_init {n : Nat} (T : Tree n) : Inv T (state0 T) := by
  refine ⟨{T.o}, fun _ => 0, ?_⟩
  refine
    { root_mem := Finset.mem_singleton_self T.o
      closed := ?_, fired_eq := ?_, cache_eq := ?_, tok_inj := ?_, tok_lt := ?_
      msg_form := ?_, count_le := ?_, fresh_pending := ?_, consumed := ?_ }
  · intro v hv hvo
    exact absurd (Finset.mem_singleton.mp hv) hvo
  · intro v
    by_cases hv : v = T.o
    · subst hv
      simp [state0]
    · simp [state0, Function.update_noteq hv, hv]
  · intro v
    by_cases hv : v = T.o
    · subst hv
      simp [state0]
    · simp [state0, Function.update_noteq hv, hv]
  · intro a ha b hb _
    rw [Finset.mem_singleton.mp ha, Finset.mem_singleton.mp hb]
  · intro v _
    simp [state0]
  · intro p hp
    simp only [state0] at hp
    obtain ⟨w, hw, rfl⟩ := List.mem_map.mp hp
    refine ⟨T.o, Finset.mem_singleton_self T.o, ?_, ?_⟩
    · have hadj := (mem_neighborList T).mp hw
      exact ⟨Ne.symm hadj.1, hadj.2.symm⟩
    · rw [msgIds, chainL_root]
      rfl
  · intro u hu d
    rw [Finset.mem_singleton.mp hu]
    simp only [state0]
    rw [msgIds, chainL_root]
    have hcount := count_map_pair (neighborList T T.o) d ([T.o].map (fun _ => 0)) [0]
    rw [hcount]
    split
    · exact List.nodup_iff_count_le_one.mp (neighborList_nodup T T.o) d
    · exact Nat.zero_le 1
  · intro d hdF hdp
    have hpdo : T.pred d = T.o := Finset.mem_singleton.mp hdp
    have hdo : d ≠ T.o := fun h => hdF (h ▸ Finset.mem_singleton_self T.o)
    simp only [state0]
    rw [hpdo, msgIds, chainL_root]
    have hcount := count_map_pair (neighborList T T.o) d ([T.o].map (fun _ => 0)) [0]
    rw [hcount, if_pos (by simp)]
    exact List.count_eq_one_of_mem (neighborList_nodup T T.o)
      ((mem_neighborList T).mpr ⟨hdo, Or.inl hpdo⟩)
  · intro d hd hdo
    exact absurd (Finset.mem_singleton.mp hd) hdo

theorem inv_step {n : Nat} {T : Tree n} {s s' : NetState n}
    (hInv : Inv T s) (hs : Step T s s') : Inv T s' := by
  obtain ⟨F, tok, hI⟩ := hInv
  obtain ⟨d, ids, hm, rfl⟩ := hs
  rcases inv_delivered_cases hI hm with ⟨u, huF, huo, hpu, hids⟩ | ⟨hdF, hdo, hpF, hids⟩
  · -- echo case: the envelope already carries d's own token and is suppressed
    have hdF : d ∈ F := by rw [← hpu]; exact hI.closed u huF huo
    have hcache : s.cache d = [(tok d, 0)] := by rw [hI.cache_eq d, if_pos hdF]
    have htokmem : tok d ∈ ids := by
      rw [hids]
      exact List.mem_map_of_mem tok (hpu ▸ pred_mem_chainL T huo)
    have hsup : (alreadyBroadcast 0 s.nextTok ids (s.cache d)).suppressed = true := by
      rw [alreadyBroadcast_suppressed_iff]
      exact ⟨tok d, htokmem, 0, by rw [hcache]; simp, by decide⟩
    have habc : (alreadyBroadcast 0 s.nextTok ids (s.cache d)).cache = s.cache d := by
      rcases alreadyBroadcast_spec 0 s.nextTok ids (s.cache d) with ⟨_, heq⟩ | ⟨_, heq⟩
      · rw [heq]
        show purgeCache 0 (s.cache d) = s.cache d
        rw [hcache]
        simp [purgeCache]
      · rw [heq] at hsup
        exact absurd hsup (by simp)
    rw [deliverAt_suppressed_eq T hsup]
    refine ⟨F, tok,
      { root_mem := hI.root_mem, closed := hI.closed, fired_eq := hI.fired_eq
        cache_eq := ?_, tok_inj := hI.tok_inj, tok_lt := hI.tok_lt
        msg_form := ?_, count_le := ?_, fresh_pending := ?_, consumed := ?_ }⟩
    · intro v
      show Function.update s.cache d (alreadyBroadcast 0 s.nextTok ids (s.cache d)).cache v
        = _
      rw [habc, Function.update_eq_self]
      exact hI.cache_eq v
    · intro p hp
      exact hI.msg_form p (List.mem_of_mem_erase hp)
    · intro u' hu' d''
      calc (s.inflight.erase (d, ids)).count (d'', msgIds T tok u')
          ≤ s.inflight.count (d'', msgIds T tok u') := by
            rw [List.count_erase]
            exact Nat.sub_le _ _
        _ ≤ 1 := hI.count_le u' hu' d''
    · intro d'' hd''F hd''p
      rw [List.count_erase]
      have hne2 : ((d, ids) == (d'', msgIds T tok (T.pred d''))) = false := by
        rw [beq_eq_false_iff_ne]
        intro hc
        have hdd : d = d'' := congrArg Prod.fst hc
        exact hd''F (hdd ▸ hdF)
      rw [hI.fresh_pending d'' hd''F hd''p, hne2]
      simp
    · intro d'' hd''F hd''o
      rw [List.count_erase, hI.consumed d'' hd''F hd''o]
      simp
  · -- fresh case: d fires for the first time
    have hcache0 : s.cache d = [] := by rw [hI.cache_eq d, if_neg hdF]
    have hab : alreadyBroadcast 0 s.nextTok ids (s.cache d) =
        { suppressed := false, eventIds := ids ++ [s.nextTok],
          cache := [(s.nextTok, 0)] } := by
      rw [hcache0]
      exact ab_fresh_nil 0 s.nextTok ids
    have hsup : (alreadyBroadcast 0 s.nextTok ids (s.cache d)).suppressed = false := by
      rw [hab]
    have habid : (alreadyBroadcast 0 s.nextTok ids (s.cache d)).eventIds =
        ids ++ [s.nextTok] := by rw [hab]
    have habch : (alreadyBroadcast 0 s.nextTok ids (s.cache d)).cache =
        [(s.nextTok, 0)] := by rw [hab]
    rw [deliverAt_fresh_eq T hsup, habid, habch]
    refine ⟨insert d F, Function.update tok d s.nextTok, ?_⟩
    have hchain_pred_F : ∀ w ∈ chainL T (T.pred d), w ∈ F :=
      chainL_closed T hI.closed hpF
    have hd_notin_chain : ∀ u' ∈ F, d ∉ chainL T u' :=
      fun u' hu' hc => hdF (chainL_closed T hI.closed hu' d hc)
    have hmsg_eq : ∀ u' ∈ F,
        msgIds T (Function.update tok d s.nextTok) u' = msgIds T tok u' :=
      fun u' hu' => msgIds_update_of_not_mem T tok (hd_notin_chain u' hu') s.nextTok
    have hmsgd : msgIds T (Function.update tok d s.nextTok) d = ids ++ [s.nextTok] := by
      unfold msgIds
      rw [chainL_ne_root T hdo, List.map_append]
      congr 1
      · have hupd := msgIds_update_of_not_mem T tok
          (fun hc => hdF (hchain_pred_F d hc)) s.nextTok
        unfold msgIds at hupd
        rw [hupd]
        show msgIds T tok (T.pred d) = ids
        exact hids.symm
      · simp
    have hnew_ne_old : ∀ u' ∈ F, msgIds T tok u' ≠ ids ++ [s.nextTok] := by
      intro u' hu' hcontra
      have hlast := msgIds_getLast T tok u'
      rw [hcontra, List.getLast?_concat] at hlast
      have h1 : tok u' = s.nextTok := (Option.some.inj hlast).symm
      have h2 := hI.tok_lt u' hu'
      omega
    have hold_no_new : ∀ (x : Fin n), (x, ids ++ [s.nextTok]) ∉ s.inflight := by
      intro x hx
      obtain ⟨u', hu', _, hcontra⟩ := hI.msg_form (x, ids ++ [s.nextTok]) hx
      exact hnew_ne_old u' hu' hcontra.symm
    refine
      { root_mem := Finset.mem_insert_of_mem hI.root_mem
        closed := ?_, fired_eq := ?_, cache_eq := ?_, tok_inj := ?_, tok_lt := ?_
        msg_form := ?_, count_le := ?_, fresh_pending := ?_, consumed := ?_ }
    · intro v hv hvo
      rcases Finset.mem_insert.mp hv with rfl | hvF
      · exact Finset.mem_insert_of_mem hpF
      · exact Finset.mem_insert_of_mem (hI.closed v hvF hvo)
    · intro v
      by_cases hvd : v = d
      · subst hvd
        show Function.update s.fired v (s.fired v + 1) v = _
        rw [Function.update_same, hI.fired_eq v, if_neg hdF,
          if_pos (Finset.mem_insert_self v F)]
      · show Function.update s.fired d (s.fired d + 1) v = _
        rw [Function.update_noteq hvd, hI.fired_eq v]
        by_cases hvF : v ∈ F
        · rw [if_pos hvF, if_pos (Finset.mem_insert_of_mem hvF)]
        · rw [if_neg hvF, if_neg (by simp [Finset.mem_insert, hvd, hvF])]
    · intro v
      by_cases hvd : v = d
      · subst hvd
        show Function.update s.cache v [(s.nextTok, 0)] v = _
        rw [Function.update_same, if_pos (Finset.mem_insert_self v F),
          Function.update_same]
      · show Function.update s.cache d [(s.nextTok, 0)] v = _
        rw [Function.update_noteq hvd, hI.cache_eq v, Function.update_noteq hvd]
        by_cases hvF : v ∈ F
        · rw [if_pos hvF, if_pos (Finset.mem_insert_of_mem hvF)]
        · rw [if_neg hvF, if_neg (by simp [Finset.mem_insert, hvd, hvF])]
    · intro a ha b hb hab2
      rcases Finset.mem_insert.mp ha with rfl | haF
      · rcases Finset.mem_insert.mp hb with rfl | hbF
        · rfl
        · rw [Function.update_same,
            Function.update_noteq (fun h => hdF (by rw [← h]; exact hbF))] at hab2
          have := hI.tok_lt b hbF
          omega
      · rcases Finset.mem_insert.mp hb with rfl | hbF
        · rw [Function.update_noteq (fun h => hdF (by rw [← h]; exact haF)),
            Function.update_same] at hab2
          have := hI.tok_lt a haF
          omega
        · rw [Function.update_noteq (fun h => hdF (by rw [← h]; exact haF)),
            Function.update_noteq (fun h => hdF (by rw [← h]; exact hbF))] at hab2
          exact hI.tok_inj a haF b hbF hab2
    · intro v hv
      show Function.update tok d s.nextTok v < s.nextTok + 1
      rcases Finset.mem_insert.mp hv with rfl | hvF
      · rw [Function.update_same]
        omega
      · rw [Function.update_noteq (fun h => hdF (by rw [← h]; exact hvF))]
        have := hI.tok_lt v hvF
        omega
    · intro p hp
      rcases List.mem_append.mp hp with hp | hp
      · obtain ⟨u', hu', hadj, hpids⟩ := hI.msg_form p (List.mem_of_mem_erase hp)
        exact ⟨u', Finset.mem_insert_of_mem hu', hadj,
          by rw [hpids, ← hmsg_eq u' hu']⟩
      · obtain ⟨w, hw, rfl⟩ := List.mem_map.mp hp
        refine ⟨d, Finset.mem_insert_self d F, ?_, hmsgd.symm⟩
        have hadj := (mem_neighborList T).mp hw
        exact ⟨Ne.symm hadj.1, hadj.2.symm⟩
    · intro u' hu' d''
      rw [List.count_append]
      rcases Finset.mem_insert.mp hu' with rfl | hu'F
      · rw [hmsgd]
        have hzero : (s.inflight.erase (u', ids)).count (d'', ids ++ [s.nextTok]) = 0 := by
          rw [List.count_eq_zero]
          intro hc
          exact hold_no_new d'' (List.mem_of_mem_erase hc)
        rw [hzero, count_map_pair, if_pos rfl]
        have := List.nodup_iff_count_le_one.mp (neighborList_nodup T u') d''
        omega
      · rw [hmsg_eq u' hu'F]
        have h1 : (s.inflight.erase (d, ids)).count (d'', msgIds T tok u') ≤ 1 := by
          calc (s.inflight.erase (d, ids)).count (d'', msgIds T tok u')
              ≤ s.inflight.count (d'', msgIds T tok u') := by
                rw [List.count_erase]
                exact Nat.sub_le _ _
            _ ≤ 1 := hI.count_le u' hu'F d''
        have h2 : ((neighborList T d).map
            (fun w => (w, ids ++ [s.nextTok]))).count (d'', msgIds T tok u') = 0 := by
          rw [count_map_pair, if_neg (hnew_ne_old u' hu'F)]
        omega
    · intro d'' hd''nF hd''p
      have hd''d : d'' ≠ d := fun h => hd''nF (h ▸ Finset.mem_insert_self d F)
      have hd''F : d'' ∉ F := fun h => hd''nF (Finset.mem_insert_of_mem h)
      rw [List.count_append]
      rcases Finset.mem_insert.mp hd''p with hpd'' | hpd''F
      · rw [hpd'', hmsgd]
        have hzero : (s.inflight.erase (d, ids)).count (d'', ids ++ [s.nextTok]) = 0 := by
          rw [List.count_eq_zero]
          intro hc
          exact hold_no_new d'' (List.mem_of_mem_erase hc)
        rw [hzero, count_map_pair, if_pos rfl]
        rw [List.count_eq_one_of_mem (neighborList_nodup T d)
          ((mem_neighborList T).mpr ⟨hd''d, Or.inl hpd''⟩)]
      · rw [hmsg_eq _ hpd''F]
        have h1 : (s.inflight.erase (d, ids)).count
            (d'', msgIds T tok (T.pred d'')) = 1 := by
          rw [List.count_erase]
          have hne2 : ((d, ids) == (d'', msgIds T tok (T.pred d''))) = false := by
            rw [beq_eq_false_iff_ne]
            intro hc
            exact hd''d (congrArg Prod.fst hc).symm
          rw [hI.fresh_pending d'' hd''F hpd''F, hne2]
          simp
        have h2 : ((neighborList T d).map
            (fun w => (w, ids ++ [s.nextTok]))).count
            (d'', msgIds T tok (T.pred d'')) = 0 := by
          rw [count_map_pair, if_neg (hnew_ne_old _ hpd''F)]
        omega
    · intro d'' hd''F' hd''o
      rw [List.count_append]
      rcases Finset.mem_insert.mp hd''F' with rfl | hd''F2
      · rw [hmsg_eq _ hpF, ← hids]
        have h1 : (s.inflight.erase (d'', ids)).count (d'', ids) = 0 := by
          rw [List.count_erase]
          have hfp := hI.fresh_pending d'' hdF hpF
          rw [← hids] at hfp
          rw [hfp]
          simp
        have h2 : ((neighborList T d'').map
            (fun w => (w, ids ++ [s.nextTok]))).count (d'', ids) = 0 := by
          rw [count_map_pair,
            if_neg (fun hc : ids = ids ++ [s.nextTok] => by simpa using congrArg List.length hc)]
        omega
      · have hpred'' : T.pred d'' ∈ F := hI.closed d'' hd''F2 hd''o
        rw [hmsg_eq _ hpred'']
        have h1 : (s.inflight.erase (d, ids)).count
            (d'', msgIds T tok (T.pred d'')) = 0 := by
          rw [List.count_erase, hI.consumed d'' hd''F2 hd''o]
          simp
        have h2 : ((neighborList T d).map
            (fun w => (w, ids ++ [s.nextTok]))).count
            (d'', msgIds T tok (T.pred d'')) = 0 := by
          rw [count_map_pair, if_neg (hnew_ne_old _ hpred'')]
        omega

theorem inv_reachable {n : Nat} {T : Tree n} {s : NetState n}
    (h : Reachable T s) : Inv T s := by
  induction h with
  | refl => exact inv_init T
  | tail _hpre hstep ih => exact inv_step ih hstep

theorem terminal_all_fired {n : Nat} {T : Tree n} {s : NetState n}
    (hInv : Inv T s) (hterm : s.inflight = []) : ∀ v, s.fired v = 1 := by
  obtain ⟨F, tok, hI⟩ := hInv
  have hF : ∀ v, v ∈ F := by
    by_contra hcon
    push_neg at hcon
    obtain ⟨v0, hv0⟩ := hcon
    have hne : (Finset.univ.filter (fun v : Fin n => v ∉ F)).Nonempty :=
      ⟨v0, by simp [hv0]⟩
    obtain ⟨dmin, hdmin, hmin⟩ := Finset.exists_min_image _ T.depth hne
    have hdminF : dmin ∉ F := by
      simpa using (Finset.mem_filter.mp hdmin).2
    have hdo : dmin ≠ T.o := fun h => hdminF (h ▸ hI.root_mem)
    have hpmem : T.pred dmin ∈ F := by
      by_contra hp
      have hmem2 : T.pred dmin ∈ Finset.univ.filter (fun v : Fin n => v ∉ F) := by
        simp [hp]
      have hle := hmin _ hmem2
      have hlt := T.hdepth dmin hdo
      omega
    have hc := hI.fresh_pending dmin hdminF hpmem
    rw [hterm] at hc
    simp at hc
  intro v
  rw [hI.fired_eq v, if_pos (hF v)]

theorem step_measure {n : Nat} {T : Tree n} {s s' : NetState n}
    (hInv : Inv T s) (hs : Step T s s') : netMeasure s' < netMeasure s := by
  obtain ⟨F, tok, hI⟩ := hInv
  obtain ⟨d, ids, hm, rfl⟩ := hs
  have hlen : 0 < s.inflight.length := List.length_pos.mpr (List.ne_nil_of_mem hm)
  have hlene := List.length_erase_of_mem hm
  rcases inv_delivered_cases hI hm with ⟨u, huF, huo, hpu, hids⟩ | ⟨hdF, hdo, hpF, hids⟩
  · have hdF : d ∈ F := by rw [← hpu]; exact hI.closed u huF huo
    have hcache : s.cache d = [(tok d, 0)] := by rw [hI.cache_eq d, if_pos hdF]
    have htokmem : tok d ∈ ids := by
      rw [hids]
      exact List.mem_map_of_mem tok (hpu ▸ pred_mem_chainL T huo)
    have hsup : (alreadyBroadcast 0 s.nextTok ids (s.cache d)).suppressed = true := by
      rw [alreadyBroadcast_suppressed_iff]
      exact ⟨tok d, htokmem, 0, by rw [hcache]; simp, by decide⟩
    rw [deliverAt_suppressed_eq T hsup]
    simp only [netMeasure, unfiredCount]
    rw [hlene]
    omega
  · have hcache0 : s.cache d = [] := by rw [hI.cache_eq d, if_neg hdF]
    have hab : alreadyBroadcast 0 s.nextTok ids (s.cache d) =
        { suppressed := false, eventIds := ids ++ [s.nextTok],
          cache := [(s.nextTok, 0)] } := by
      rw [hcache0]
      exact ab_fresh_nil 0 s.nextTok ids
    have hsup : (alreadyBroadcast 0 s.nextTok ids (s.cache d)).suppressed = false := by
      rw [hab]
    rw [deliverAt_fresh_eq T hsup]
    have hfd : s.fired d = 0 := by rw [hI.fired_eq d, if_neg hdF]
    have hset : Finset.univ.filter
        (fun v : Fin n => Function.update s.fired d (s.fired d + 1) v = 0) =
        (Finset.univ.filter (fun v : Fin n => s.fired v = 0)).erase d := by
      ext v
      by_cases hvd : v = d
      · subst hvd
        simp [Function.update_same]
      · simp [Function.update_noteq hvd, hvd]
    have hdmem : d ∈ Finset.univ.filter (fun v : Fin n => s.fired v = 0) := by
      simp [hfd]
    have hcard := Finset.card_erase_of_mem hdmem
    have hpos : 0 < (Finset.univ.filter (fun v : Fin n => s.fired v = 0)).card :=
      Finset.card_pos.mpr ⟨d, hdmem⟩
    have hnbr : (neighborList T d).length ≤ n := by
      have h1 := (neighborList_nodup T d).length_le_card
      rwa [Fintype.card_fin] at h1
    simp only [netMeasure, unfiredCount, List.length_append, List.length_map]
    rw [hset, hcard, hlene]
    set C := (Finset.univ.filter (fun v : Fin n => s.fired v = 0)).card with hC
    have hmul : (2 * n + 2) * (C - 1) + (2 * n + 2) = (2 * n + 2) * C := by
      calc (2 * n + 2) * (C - 1) + (2 * n + 2) = (2 * n + 2) * ((C - 1) + 1) := by ring
        _ = (2 * n + 2) * C := by rw [Nat.sub_add_cancel hpos]
    omega

theorem no_infinite_run {n : Nat} (T : Tree n) (f : Nat → NetState n)
    (h0 : f 0 = state0 T) (hstep : ∀ i, Step T (f i) (f (i + 1))) : False := by
  have hreach : ∀ i, Reachable T (f i) := by
    intro i
    induction i with
    | zero =>
        rw [h0]
        exact Relation.ReflTransGen.refl
    | succ k ih => exact Relation.ReflTransGen.tail ih (hstep k)
  have hdec : ∀ i, netMeasure (f (i + 1)) < netMeasure (f i) :=
    fun i => step_measure (inv_reachable (hreach i)) (hstep i)
  have hbound : ∀ k, netMeasure (f k) + k ≤ netMeasure (f 0) := by
    intro k
    induction k with
    | zero => omega
    | succ k ih =>
        have := hdec k
        omega
  have := hbound (netMeasure (f 0) + 1)
  omega

/-! ## Claim C1 -/

/-- C1: for every finite tree of contexts (presented re-rooted at the
originating context, which loses nothing because a context always relays
to parent and children alike) and an untargeted namespaced broadcast
initiated at the origin on quiescent caches, every context fires locally
at most once in every reachable state, exactly once in every quiescent
(no messages in flight) state, and no infinite delivery sequence exists:
every relay loop is eventually suppressed by the dedup cache. -/
theorem c1_tree_fires_exactly_once (n : Nat) (T : Tree n) :
    (∀ s, Reachable T s → ∀ v, s.fired v ≤ 1) ∧
    (∀ s, Reachable T s → s.inflight = [] → ∀ v, s.fired v = 1) ∧
    (∀ f : Nat → NetState n, f 0 = state0 T → ¬ (∀ i, Step T (f i) (f (i + 1)))) := by
  refine ⟨?_, ?_, ?_⟩
  · intro s hs v
    obtain ⟨F, tok, hI⟩ := inv_reachable hs
    rw [hI.fired_eq v]
    split <;> omega
  · intro s hs hterm
    exact terminal_all_fired (inv_reachable hs) hterm
  · intro f h0 hsteps
    exact no_infinite_run T f h0 hsteps

/-- The C1 theorem evaluated on a concrete two-context tree: the page
broadcasts, the iframe receives and fires, the echo back to the page is
suppressed, propagation quiesces, and both contexts fired exactly once. -/
theorem c1_tree_fires_exactly_once_witness :
    (deliverAt treeTwo 0 [0, 1] (deliverAt treeTwo 1 [0] (state0 treeTwo))).inflight
      = [] ∧
    (deliverAt treeTwo 0 [0, 1] (deliverAt treeTwo 1 [0] (state0 treeTwo))).fired 0
      = 1 ∧
    (deliverAt treeTwo 0 [0, 1] (deliverAt treeTwo 1 [0] (state0 treeTwo))).fired 1
      = 1 := by
  have hstep1 : Step treeTwo (state0 treeTwo)
      (deliverAt treeTwo 1 [0] (state0 treeTwo)) :=
    ⟨1, [0], by decide, rfl⟩
  have hstep2 : Step treeTwo (deliverAt treeTwo 1 [0] (state0 treeTwo))
      (deliverAt treeTwo 0 [0, 1] (deliverAt treeTwo 1 [0] (state0 treeTwo))) :=
    ⟨0, [0, 1], by decide, rfl⟩
  have hreach : Reachable treeTwo
      (deliverAt treeTwo 0 [0, 1] (deliverAt treeTwo 1 [0] (state0 treeTwo))) :=
    Relation.ReflTransGen.tail
      (Relation.ReflTransGen.tail Relation.ReflTransGen.refl hstep1) hstep2
  have h := (c1_tree_fires_exactly_once 2 treeTwo).2.1 _ hreach (by decide)
  exact ⟨by decide, h 0, h 1⟩

end BroadcastEvent
